import Mathlib

/-!
# Start-up / shutdown orchestration of `internal/app.go`

`AppImpl.Run` (app.go:36-61) creates a signal context, an errgroup over it, and
two goroutines: a teardown task (`<-errCtx.Done()` then `Storage.Down`) and a
serve task (`Storage.Up` then `AppImpl.listen`).  `AppImpl.listen`
(app.go:63-98) starts one more goroutine that calls `srv.Shutdown` once the
context is done, and blocks in `srv.ListenAndServe`.

The goroutines are embedded as an interleaving transition system: every
goroutine has a program counter, the blocking calls into the environment
(`Up`, `Down`, `ListenAndServe`, `Shutdown`, the operating system's signal)
are events whose results the environment chooses, and `step` is the effect of
one event.  The return of a task function and the errgroup wrapper's handling
of the returned value are separate events, so other goroutines can act in
between.  `exec` runs a schedule (a list of events).  The observable calls and
returns are recorded in `State.trace`, most recent first.

errgroup, net/http, context and os/signal are libraries outside app.go; their
part of the model follows their documented behaviour.
-/

set_option linter.unusedTactic false
set_option linter.unreachableTactic false
set_option linter.unnecessarySeqFocus false
set_option linter.unusedVariables false

namespace Gophermart

/-! ## Errors and contexts -/

/-- A non-nil Go `error` value.  `ErrServerClosed` is the value
`http.ErrServerClosed` that app.go:94 compares against; every other error
value is `other n`. -/
inductive GoError where
  | ErrServerClosed
  | other (n : Nat)
  deriving DecidableEq

/-- A Go `error` result: `none` is `nil`. -/
abbrev Result := Option GoError

/-- Go contexts.  app.go builds three kinds: `context.Background()`
(lines 38, 46, 89), `signal.NotifyContext(parent, os.Interrupt, syscall.SIGTERM)`
(line 38) and the cancellable child that `errgroup.WithContext(parent)` derives
(line 41).  `withTimeout parent d` is `context.WithTimeout(parent, d)`, which
app.go never calls; it is the kind of context that carries a deadline. -/
inductive Ctx where
  | background
  | notify (parent : Ctx)
  | withCancel (parent : Ctx)
  | withTimeout (parent : Ctx) (d : Nat)
  deriving DecidableEq

/-- The cancellation sources of one run: `signalled` (SIGINT/SIGTERM was
delivered to the NotifyContext), `stopped` (the deferred `cancel()` of
line 39 ran), `groupCancelled` (the errgroup called its cancel function),
`timedOut` (the timer of a `withTimeout` context fired). -/
structure Flags where
  signalled : Bool
  stopped : Bool
  groupCancelled : Bool
  timedOut : Bool
  deriving DecidableEq

/-- Whether `c.Done()` is closed.  Background is never done; a derived
context is done when its own source fired or when its parent is done. -/
def Ctx.done : Ctx → Flags → Bool
  | .background, _ => false
  | .notify p, f => f.signalled || f.stopped || p.done f
  | .withCancel p, f => f.groupCancelled || p.done f
  | .withTimeout p _, f => f.timedOut || p.done f

/-- The deadline of a context (`ctx.Deadline()`), as the time left when it is
created.  Background has none, `notify` and `withCancel` inherit their
parent's, `withTimeout` sets one (the earlier of its own and its parent's). -/
def Ctx.deadline : Ctx → Option Nat
  | .background => none
  | .notify p => p.deadline
  | .withCancel p => p.deadline
  | .withTimeout p d =>
    match p.deadline with
    | none => some d
    | some d0 => some (min d d0)

/-- Whether `c` is `a` or was derived (directly or transitively) from `a`. -/
def Ctx.derivedFrom (c a : Ctx) : Bool :=
  c == a ||
    match c with
    | .background => false
    | .notify p => p.derivedFrom a
    | .withCancel p => p.derivedFrom a
    | .withTimeout p _ => p.derivedFrom a

/-- The `ctx` of app.go:38. -/
def ctx : Ctx := .notify .background

/-- The `errCtx` of app.go:41. -/
def errCtx : Ctx := .withCancel ctx

/-! ## The errgroup (golang.org/x/sync/errgroup, imported at app.go:6) -/

/-- The fields of `errgroup.Group` that matter: `err` (written once, under
`errOnce`, so it is non-nil exactly when `errOnce` has fired) and whether the
group's `cancel` function has been called. -/
structure Group where
  err : Result
  cancelled : Bool
  deriving DecidableEq

/-- What the wrapper of `Group.Go` does when the task function returns `r`
(errgroup is a library, not part of app.go; this follows its source):
`if err := f(); err != nil { g.errOnce.Do(func() { g.err = err; g.cancel(g.err) }) }`.
A nil result changes nothing; only the first non-nil result is stored, and
storing it cancels the group's context.  In a run this handling is an event of
its own (`Event.groupDone`), separate from the return of the task function:
another goroutine can act between the two.  `errOnce` serialises the handling,
so the order of completions is the order in which the group handles the
results. -/
def Group.taskDone (g : Group) (r : Result) : Group :=
  match r with
  | none => g
  | some e =>
    match g.err with
    | none => { err := some e, cancelled := true }
    | some _ => g

/-- `Group.Wait` once every task has returned: it calls `g.cancel` and
returns `g.err`. -/
def Group.wait (g : Group) : Group × Result :=
  ({ g with cancelled := true }, g.err)

/-! ## `AppImpl.listen` -/

/-- One second in `time.Duration` units (nanoseconds). -/
def Second : Nat := 1000000000

/-- The `http.Server` configuration of app.go:79-84 (handler and address are
wiring and left out). -/
structure Server where
  WriteTimeout : Nat
  ReadTimeout : Nat
  deriving DecidableEq

/-- The server value built at app.go:79-84. -/
def srv : Server := { WriteTimeout := 5 * Second, ReadTimeout := 5 * Second }

/-- The context handed to `srv.Shutdown` at app.go:89. -/
def shutdownCtx : Ctx := .background

/-- The context handed to `Storage.Down` at app.go:46. -/
def downCtx : Ctx := .background

/-- The value `AppImpl.listen` returns when `srv.ListenAndServe()` ended with
`r` (app.go:94-98):
`if err := srv.ListenAndServe(); err != nil && err != http.ErrServerClosed { return err }; return nil`. -/
def listen (r : Result) : Result :=
  if r ≠ none ∧ r ≠ some GoError.ErrServerClosed then r else none

/-! ## The goroutines of one run -/

/-- The two task functions handed to `eg.Go`. -/
inductive Task where
  | teardown
  | serve
  deriving DecidableEq

/-- Program counter of the teardown task (app.go:44-47): blocked on
`<-errCtx.Done()`, inside `a.s.Down`, its function has returned `r` (the
errgroup wrapper has not handled `r` yet), or completed (the wrapper has
handled `r` and released the wait group). -/
inductive TeardownPc where
  | waiting
  | inDown
  | returned (r : Result)
  | done (r : Result)
  deriving DecidableEq

/-- Program counter of the serve task (app.go:50-58): not yet in `Up`, inside
`a.s.Up`, inside `srv.ListenAndServe` (called from `a.listen`), its function
has returned `r` (the errgroup wrapper has not handled `r` yet), or completed
(the wrapper has handled `r` and released the wait group). -/
inductive ServePc where
  | start
  | inUp
  | serving
  | returned (r : Result)
  | done (r : Result)
  deriving DecidableEq

/-- Program counter of the goroutine of app.go:86-90: not spawned, blocked on
`<-ctx.Done()`, inside `srv.Shutdown`, or finished. -/
inductive ShutdownPc where
  | absent
  | waiting
  | inShutdown
  | done
  deriving DecidableEq

/-- Program counter of `Run` itself: blocked in `eg.Wait()` or returned. -/
inductive RunPc where
  | waiting
  | returned (r : Result)
  deriving DecidableEq

/-- Observable calls and returns, recorded in the trace.  `taskDone t r` is
the completion of task `t`: the errgroup wrapper has handled the value `r` its
function returned. -/
inductive Obs where
  | signal
  | upCall (c : Ctx)
  | upRet (r : Result)
  | listenCall (c : Ctx)
  | lasRet (r : Result)
  | shutdownCall (c : Ctx)
  | downCall (c : Ctx)
  | downRet (r : Result)
  | taskDone (t : Task) (r : Result)
  | runRet (r : Result)
  deriving DecidableEq

/-- State of one run of `AppImpl.Run` after line 58 (both `eg.Go` calls
made): `signalled` (a signal reached the NotifyContext), `stopped` (the
deferred `cancel()` of line 39 ran), the errgroup, the program counters and
the trace (most recent observation first). -/
structure State where
  signalled : Bool
  stopped : Bool
  eg : Group
  teardown : TeardownPc
  serve : ServePc
  shutdown : ShutdownPc
  run : RunPc
  trace : List Obs
  deriving DecidableEq

/-- The state right after the two `eg.Go` calls: nothing cancelled, no error
stored, no goroutine has made progress. -/
def init : State :=
  { signalled := false
    stopped := false
    eg := { err := none, cancelled := false }
    teardown := .waiting
    serve := .start
    shutdown := .absent
    run := .waiting
    trace := [] }

/-- The cancellation flags as the contexts see them: the group's flag is the
errgroup's `cancelled` field; no timer exists in a run of app.go. -/
def State.flags (s : State) : Flags :=
  { signalled := s.signalled
    stopped := s.stopped
    groupCancelled := s.eg.cancelled
    timedOut := false }

/-- Whether `errCtx.Done()` is closed in state `s`. -/
def State.errCtxDone (s : State) : Bool := errCtx.done s.flags

/-- The events of the interleaving: what the environment or a goroutine does
next. -/
inductive Event where
  | signal
  | teardownWake
  | downReturn (d : Result)
  | upCall
  | upReturn (r : Result)
  | shutdownWake
  | shutdownReturn
  | lasReturn (r : Result)
  | groupDone (t : Task)
  | waitReturn
  deriving DecidableEq

/-- One event.  `none` means the event is not enabled in `s`.

* `signal`: SIGINT/SIGTERM while the NotifyContext is registered (until `Run`
  returns).
* `teardownWake`: `<-errCtx.Done()` (line 45) unblocks and line 46 calls
  `a.s.Down(context.Background())`.
* `downReturn d`: `Down` returns `d` and the teardown function returns `d`
  (line 46).
* `upCall`: line 53 calls `a.s.Up(errCtx)`.
* `upReturn r`: `Up` returns `r`; a non-nil `r` is returned by the serve
  function (line 54), a nil `r` leads to `a.listen(errCtx)` (line 57), which
  spawns the goroutine of lines 86-90 and enters `srv.ListenAndServe()`.
* `shutdownWake`: `<-ctx.Done()` (line 87, `ctx` is `errCtx`) unblocks and
  line 89 calls `srv.Shutdown(context.Background())`.
* `shutdownReturn`: `Shutdown` returns; its result is discarded (line 89).
* `lasReturn r`: `ListenAndServe` returns `r`, which is never nil (net/http
  always returns a non-nil error), and is `http.ErrServerClosed` only after
  `Shutdown` was called (nothing else closes `srv`); it does not wait for
  `Shutdown` to return.  `listen` returns `listen r` and the serve function
  returns it (line 57).
* `groupDone t`: the errgroup wrapper of task `t` handles the value the task
  function returned (`Group.taskDone`) and releases the wait group.
* `waitReturn`: both tasks have completed, so `eg.Wait()` (line 60) cancels
  the group's context and returns `g.err`; `Run` returns it and the deferred
  `cancel()` (line 39) stops the NotifyContext. -/
def step (s : State) : Event → Option State
  | .signal =>
    match s.run with
    | .waiting =>
      some { s with signalled := true, trace := .signal :: s.trace }
    | .returned _ => none
  | .teardownWake =>
    match s.teardown with
    | .waiting =>
      if s.errCtxDone then
        some { s with teardown := .inDown, trace := .downCall downCtx :: s.trace }
      else none
    | _ => none
  | .downReturn d =>
    match s.teardown with
    | .inDown => some { s with teardown := .returned d, trace := .downRet d :: s.trace }
    | _ => none
  | .upCall =>
    match s.serve with
    | .start => some { s with serve := .inUp, trace := .upCall errCtx :: s.trace }
    | _ => none
  | .upReturn r =>
    match s.serve with
    | .inUp =>
      match r with
      | some e =>
        some { s with serve := .returned (some e), trace := .upRet (some e) :: s.trace }
      | none =>
        some { s with
          serve := .serving
          shutdown := .waiting
          trace := .listenCall errCtx :: .upRet none :: s.trace }
    | _ => none
  | .shutdownWake =>
    match s.shutdown with
    | .waiting =>
      if s.errCtxDone then
        some { s with shutdown := .inShutdown, trace := .shutdownCall shutdownCtx :: s.trace }
      else none
    | _ => none
  | .shutdownReturn =>
    match s.shutdown with
    | .inShutdown => some { s with shutdown := .done }
    | _ => none
  | .lasReturn r =>
    match s.serve with
    | .serving =>
      if r = none ∨
          (r = some GoError.ErrServerClosed ∧ (s.shutdown = .absent ∨ s.shutdown = .waiting)) then
        none
      else
        some { s with serve := .returned (listen r), trace := .lasRet r :: s.trace }
    | _ => none
  | .groupDone .teardown =>
    match s.teardown with
    | .returned d =>
      some { s with
        teardown := .done d
        eg := s.eg.taskDone d
        trace := .taskDone .teardown d :: s.trace }
    | _ => none
  | .groupDone .serve =>
    match s.serve with
    | .returned r =>
      some { s with
        serve := .done r
        eg := s.eg.taskDone r
        trace := .taskDone .serve r :: s.trace }
    | _ => none
  | .waitReturn =>
    match s.run, s.teardown, s.serve with
    | .waiting, .done _, .done _ =>
      some { s with
        run := .returned s.eg.wait.2
        eg := s.eg.wait.1
        stopped := true
        trace := .runRet s.eg.wait.2 :: s.trace }
    | _, _, _ => none

/-- Run a schedule from `s`; `none` when some event of it is not enabled. -/
def exec (s : State) : List Event → Option State
  | [] => some s
  | ev :: evs => (step s ev).bind fun s1 => exec s1 evs

/-! ## Reading the trace -/

/-- Number of `Storage.Down` invocations in a trace. -/
def downCalls : List Obs → Nat
  | [] => 0
  | .downCall _ :: tr => downCalls tr + 1
  | _ :: tr => downCalls tr

/-- Results of the completed `Storage.Down` invocations, most recent first. -/
def downRets : List Obs → List Result
  | [] => []
  | .downRet r :: tr => r :: downRets tr
  | _ :: tr => downRets tr

/-- Number of `Storage.Up` invocations in a trace. -/
def upCalls : List Obs → Nat
  | [] => 0
  | .upCall _ :: tr => upCalls tr + 1
  | _ :: tr => upCalls tr

/-- Results of the completed `Storage.Up` invocations, most recent first. -/
def upRets : List Obs → List Result
  | [] => []
  | .upRet r :: tr => r :: upRets tr
  | _ :: tr => upRets tr

/-- Number of `AppImpl.listen` invocations in a trace. -/
def listenCalls : List Obs → Nat
  | [] => 0
  | .listenCall _ :: tr => listenCalls tr + 1
  | _ :: tr => listenCalls tr

/-- Results of the completed `srv.ListenAndServe` calls, most recent first. -/
def lasRets : List Obs → List Result
  | [] => []
  | .lasRet r :: tr => r :: lasRets tr
  | _ :: tr => lasRets tr

/-- Number of `srv.Shutdown` invocations in a trace. -/
def shutdownCalls : List Obs → Nat
  | [] => 0
  | .shutdownCall _ :: tr => shutdownCalls tr + 1
  | _ :: tr => shutdownCalls tr

/-- The task completions of a trace in the order in which the group handled
them (oldest first). -/
def completions : List Obs → List (Task × Result)
  | [] => []
  | .taskDone t r :: tr => completions tr ++ [(t, r)]
  | _ :: tr => completions tr

/-- The first non-nil error of a list of results, `none` if all are nil. -/
def firstError : List Result → Result
  | [] => none
  | some e :: _ => some e
  | none :: rs => firstError rs

/-! ## Relational reading of `step` and the invariants of a run -/

/-- Relational reading of `step`, one constructor per enabled event; used for
case analysis in the proofs (`Step.of_step`). -/
inductive Step : State → Event → State → Prop
  | signal (s : State) (h : s.run = .waiting) :
      Step s .signal { s with signalled := true, trace := .signal :: s.trace }
  | teardownWake (s : State) (h : s.teardown = .waiting) (hd : s.errCtxDone = true) :
      Step s .teardownWake { s with teardown := .inDown, trace := .downCall downCtx :: s.trace }
  | downReturn (s : State) (d : Result) (h : s.teardown = .inDown) :
      Step s (.downReturn d) { s with teardown := .returned d, trace := .downRet d :: s.trace }
  | upCall (s : State) (h : s.serve = .start) :
      Step s .upCall { s with serve := .inUp, trace := .upCall errCtx :: s.trace }
  | upFail (s : State) (e : GoError) (h : s.serve = .inUp) :
      Step s (.upReturn (some e)) { s with
        serve := .returned (some e), trace := .upRet (some e) :: s.trace }
  | upOk (s : State) (h : s.serve = .inUp) :
      Step s (.upReturn none) { s with
        serve := .serving
        shutdown := .waiting
        trace := .listenCall errCtx :: .upRet none :: s.trace }
  | shutdownWake (s : State) (h : s.shutdown = .waiting) (hd : s.errCtxDone = true) :
      Step s .shutdownWake { s with
        shutdown := .inShutdown, trace := .shutdownCall shutdownCtx :: s.trace }
  | shutdownReturn (s : State) (h : s.shutdown = .inShutdown) :
      Step s .shutdownReturn { s with shutdown := .done }
  | lasReturn (s : State) (r : Result) (h : s.serve = .serving) (hr : r ≠ none)
      (hg : r = some GoError.ErrServerClosed →
        s.shutdown = .inShutdown ∨ s.shutdown = .done) :
      Step s (.lasReturn r) { s with
        serve := .returned (listen r), trace := .lasRet r :: s.trace }
  | teardownDone (s : State) (d : Result) (h : s.teardown = .returned d) :
      Step s (.groupDone .teardown) { s with
        teardown := .done d
        eg := s.eg.taskDone d
        trace := .taskDone .teardown d :: s.trace }
  | serveDone (s : State) (r : Result) (h : s.serve = .returned r) :
      Step s (.groupDone .serve) { s with
        serve := .done r
        eg := s.eg.taskDone r
        trace := .taskDone .serve r :: s.trace }
  | waitReturn (s : State) (d x : Result) (h : s.run = .waiting)
      (ht : s.teardown = .done d) (hs : s.serve = .done x) :
      Step s .waitReturn { s with
        run := .returned s.eg.wait.2
        eg := s.eg.wait.1
        stopped := true
        trace := .runRet s.eg.wait.2 :: s.trace }

/-- Control invariant of the run: how the flags, the errgroup and the program
counters constrain each other in every reachable state. -/
structure Ctl (s : State) : Prop where
  stopped_run : s.stopped = true → ∃ r, s.run = .returned r
  returned : ∀ r, s.run = .returned r →
    r = s.eg.err ∧ s.eg.cancelled = true ∧ s.stopped = true ∧
      (∃ d, s.teardown = .done d) ∧ (∃ x, s.serve = .done x)
  tearWoke : s.teardown ≠ .waiting → s.errCtxDone = true
  cancelled : s.eg.cancelled = true → s.eg.err ≠ none ∨ ∃ r, s.run = .returned r
  errFrom : ∀ e, s.eg.err = some e → s.teardown = .done (some e) ∨ s.serve = .done (some e)
  errNone : s.eg.err = none →
    (∀ d, s.teardown = .done d → d = none) ∧ (∀ x, s.serve = .done x → x = none)
  errCancel : s.eg.err ≠ none → s.eg.cancelled = true
  shutWoke : s.shutdown = .inShutdown ∨ s.shutdown = .done → s.errCtxDone = true
  servingShut : s.serve = .serving → s.shutdown ≠ .absent

/-- Trace invariant of the teardown task. -/
def DownInv (s : State) : Prop :=
  match s.teardown with
  | .waiting => downCalls s.trace = 0 ∧ downRets s.trace = []
  | .inDown => downCalls s.trace = 1 ∧ downRets s.trace = []
  | .returned d => downCalls s.trace = 1 ∧ downRets s.trace = [d]
  | .done d => downCalls s.trace = 1 ∧ downRets s.trace = [d]

/-- What the trace holds once the serve function has returned `r`: `Up` was
called once and either returned the error `r` (then `listen` was never called)
or returned nil, after which `listen` was called once and `ListenAndServe`
ended with a non-nil `x` such that `r` is `listen x`. -/
def Served (tr : List Obs) (r : Result) : Prop :=
  upCalls tr = 1 ∧
    ((∃ e, r = some e ∧ upRets tr = [some e] ∧ listenCalls tr = 0 ∧ lasRets tr = []) ∨
      (∃ x, x ≠ none ∧ r = listen x ∧ upRets tr = [none] ∧ listenCalls tr = 1 ∧
        lasRets tr = [x]))

/-- Trace invariant of the serve task. -/
def UpInv (s : State) : Prop :=
  match s.serve with
  | .start => upCalls s.trace = 0 ∧ upRets s.trace = [] ∧ listenCalls s.trace = 0 ∧
      lasRets s.trace = []
  | .inUp => upCalls s.trace = 1 ∧ upRets s.trace = [] ∧ listenCalls s.trace = 0 ∧
      lasRets s.trace = []
  | .serving => upCalls s.trace = 1 ∧ upRets s.trace = [none] ∧ listenCalls s.trace = 1 ∧
      lasRets s.trace = []
  | .returned r => Served s.trace r
  | .done r => Served s.trace r

/-- Trace invariant of the shutdown goroutine. -/
def ShutInv (s : State) : Prop :=
  match s.shutdown with
  | .absent => shutdownCalls s.trace = 0 ∧ listenCalls s.trace = 0
  | .waiting => shutdownCalls s.trace = 0 ∧ listenCalls s.trace = 1
  | .inShutdown => shutdownCalls s.trace = 1 ∧ listenCalls s.trace = 1
  | .done => shutdownCalls s.trace = 1 ∧ listenCalls s.trace = 1

/-- The completion the teardown task has contributed so far. -/
def TeardownPc.completed : TeardownPc → List (Task × Result)
  | .done d => [(Task.teardown, d)]
  | _ => []

/-- The completion the serve task has contributed so far. -/
def ServePc.completed : ServePc → List (Task × Result)
  | .done x => [(Task.serve, x)]
  | _ => []

/-- Trace invariant of the task completions: the completions recorded in the
trace are those of the finished tasks, in one of the two possible orders. -/
def CompInv (s : State) : Prop :=
  completions s.trace = s.teardown.completed ++ s.serve.completed ∨
    completions s.trace = s.serve.completed ++ s.teardown.completed

/-- All trace invariants together with the control invariant. -/
structure Inv (s : State) : Prop where
  ctl : Ctl s
  down : DownInv s
  up : UpInv s
  shut : ShutInv s
  comp : CompInv s
  sig : s.signalled = true ↔ Obs.signal ∈ s.trace
  err : s.eg.err = firstError ((completions s.trace).map Prod.snd)
  early : (s.serve = .start ∨ s.serve = .inUp) →
    s.stopped = false ∧ (s.teardown = .waiting → s.eg.cancelled = false ∧ s.eg.err = none) ∧
      (s.teardown ≠ .waiting → s.signalled = true)
  closed : some GoError.ErrServerClosed ∈ lasRets s.trace →
    s.shutdown = .inShutdown ∨ s.shutdown = .done
  quiet : s.signalled = false → s.teardown ≠ .waiting →
    ∃ e, s.serve = .done (some e) ∧ s.eg.err = some e

/-- Every observation of the trace that satisfies `q` has `P` true of the part
of the trace that was recorded before it. -/
def Preceded (q : Obs → Prop) (P : List Obs → Prop) (tr : List Obs) : Prop :=
  ∀ later o earlier, tr = later ++ o :: earlier → q o → P earlier

/-- The observation is a call of `Storage.Down`. -/
def Obs.isDownCall : Obs → Prop
  | .downCall _ => True
  | _ => False

/-- The observation is a call of `AppImpl.listen`. -/
def Obs.isListenCall : Obs → Prop
  | .listenCall _ => True
  | _ => False

/-- The observation is a call of `srv.Shutdown`. -/
def Obs.isShutdownCall : Obs → Prop
  | .shutdownCall _ => True
  | _ => False

/-- The trace shows a reason for `errCtx` to be done while `Run` is still
waiting: a signal, or a task completed with a non-nil error (handled by the
group). -/
def CancelSeen (tr : List Obs) : Prop :=
  Obs.signal ∈ tr ∨ ∃ t e, Obs.taskDone t (some e) ∈ tr

/-- The trace shows a signal or a serve task completed with a non-nil error
(from `Up` or from `listen`, handled by the group). -/
def SignalOrServeFailed (tr : List Obs) : Prop :=
  Obs.signal ∈ tr ∨ ∃ e, Obs.taskDone Task.serve (some e) ∈ tr

/-- The trace shows `Up` called once and returned nil, and no `listen` yet. -/
def UpReturnedNil (tr : List Obs) : Prop :=
  upCalls tr = 1 ∧ upRets tr = [none] ∧ listenCalls tr = 0

/-- The trace shows a reason for `errCtx` to be done: a signal, a task that
returned a non-nil error, or the return of `Wait`. -/
def CancelledIn (tr : List Obs) : Prop :=
  CancelSeen tr ∨ ∃ r, Obs.runRet r ∈ tr

/-- Order invariant of the trace. -/
structure Ord (s : State) : Prop where
  down : Preceded Obs.isDownCall SignalOrServeFailed s.trace
  listen : Preceded Obs.isListenCall UpReturnedNil s.trace
  shut : Preceded Obs.isShutdownCall CancelledIn s.trace
  serveDone : ∀ r, s.serve = .done r → Obs.taskDone Task.serve r ∈ s.trace
  tearDone : ∀ r, s.teardown = .done r → Obs.taskDone Task.teardown r ∈ s.trace
  ret : ∀ r, s.run = .returned r → Obs.runRet r ∈ s.trace
  retOnly : ∀ r, Obs.runRet r ∈ s.trace → s.run = .returned r
  downArg : ∀ c, Obs.downCall c ∈ s.trace → c = Ctx.background
  shutArg : ∀ c, Obs.shutdownCall c ∈ s.trace → c = Ctx.background
  listenArg : ∀ c, Obs.listenCall c ∈ s.trace → c = errCtx
  upArg : ∀ c, Obs.upCall c ∈ s.trace → c = errCtx

/-- The orchestrator states named by the specification. -/
inductive Phase where
  | Idle
  | MigratingUp
  | Serving
  | ShuttingDown
  | MigratedDown
  | Done
  deriving DecidableEq

/-- The edges of the specification's state machine:
Idle, MigratingUp, Serving, ShuttingDown, MigratedDown, Done in a row, and the
shortcut from MigratingUp to MigratedDown. -/
def specEdge : Phase → Phase → Bool
  | .Idle, .MigratingUp => true
  | .MigratingUp, .Serving => true
  | .Serving, .ShuttingDown => true
  | .ShuttingDown, .MigratedDown => true
  | .MigratedDown, .Done => true
  | .MigratingUp, .MigratedDown => true
  | _, _ => false

/-- The phase a state of the run is in.  `Done`: `Run` has returned.
Otherwise the serve task decides: not yet in `Up` is `Idle`, inside `Up` is
`MigratingUp`.  After that (the serve function serving, returned or
completed), `MigratedDown` is the teardown phase: `Down` has been invoked, or
`Up` has failed (so `listen` was never called) and the teardown is due; `ShuttingDown` is the listener having been started and either
`errCtx` being done or the listener having stopped, with `Down` not yet
invoked; `Serving` is the listener running with `errCtx` not done. -/
def phase (s : State) : Phase :=
  match s.run with
  | .returned _ => .Done
  | .waiting =>
    match s.serve with
    | .start => .Idle
    | .inUp => .MigratingUp
    | .serving =>
      match s.teardown with
      | .waiting => if s.errCtxDone then .ShuttingDown else .Serving
      | _ => .MigratedDown
    | .returned _ =>
      match s.teardown with
      | .waiting => if listenCalls s.trace = 0 then .MigratedDown else .ShuttingDown
      | _ => .MigratedDown
    | .done _ =>
      match s.teardown with
      | .waiting => if listenCalls s.trace = 0 then .MigratedDown else .ShuttingDown
      | _ => .MigratedDown

/-- No signal has arrived while `Up` has not yet returned. -/
def NoEarlySignal (s : State) : Prop :=
  (s.serve = .start ∨ s.serve = .inUp) → s.signalled = false

/-! ## Example runs -/

/-- The state after `Up` was called and failed with error 7, and the group
handled that result. -/
def upFailedState : State :=
  { signalled := false
    stopped := false
    eg := { err := some (GoError.other 7), cancelled := true }
    teardown := TeardownPc.waiting
    serve := ServePc.done (some (GoError.other 7))
    shutdown := ShutdownPc.absent
    run := RunPc.waiting
    trace := [Obs.taskDone Task.serve (some (GoError.other 7)),
      Obs.upRet (some (GoError.other 7)), Obs.upCall errCtx] }

/-- The schedule that leads to `upFailedState`. -/
def upFailedSchedule : List Event :=
  [Event.upCall, Event.upReturn (some (GoError.other 7)), Event.groupDone Task.serve]

/-- The state after `upFailedSchedule` and the teardown task waking up and
calling `Down`. -/
def downStartedState : State :=
  { upFailedState with
    teardown := TeardownPc.inDown
    trace := Obs.downCall Ctx.background :: upFailedState.trace }

/-- The state after `Up` returned nil and `listen` was called. -/
def servingState : State :=
  { signalled := false
    stopped := false
    eg := { err := none, cancelled := false }
    teardown := TeardownPc.waiting
    serve := ServePc.serving
    shutdown := ShutdownPc.waiting
    run := RunPc.waiting
    trace := [Obs.listenCall errCtx, Obs.upRet none, Obs.upCall errCtx] }

/-- The state after a signal arrived while serving and the goroutine of
`listen` called `srv.Shutdown`. -/
def shutdownRequestedState : State :=
  { servingState with
    signalled := true
    shutdown := ShutdownPc.inShutdown
    trace := Obs.shutdownCall Ctx.background :: Obs.signal :: servingState.trace }

/-- The schedule in which the listener fails with error 3 (no signal) and
`Down` then returns `d`; both tasks complete, `Wait` has not returned. -/
def listenerFailureSchedule (d : Result) : List Event :=
  [Event.upCall, Event.upReturn none, Event.lasReturn (some (GoError.other 3)),
    Event.groupDone Task.serve, Event.teardownWake, Event.downReturn d,
    Event.groupDone Task.teardown]

/-- The state after `listenerFailureSchedule (some (GoError.other 4))`. -/
def listenerFailedState : State :=
  { signalled := false
    stopped := false
    eg := { err := some (GoError.other 3), cancelled := true }
    teardown := TeardownPc.done (some (GoError.other 4))
    serve := ServePc.done (some (GoError.other 3))
    shutdown := ShutdownPc.waiting
    run := RunPc.waiting
    trace := [Obs.taskDone Task.teardown (some (GoError.other 4)),
      Obs.downRet (some (GoError.other 4)), Obs.downCall Ctx.background,
      Obs.taskDone Task.serve (some (GoError.other 3)),
      Obs.lasRet (some (GoError.other 3)), Obs.listenCall errCtx, Obs.upRet none,
      Obs.upCall errCtx] }

/-- The state after `listenerFailureSchedule (some (GoError.other 4))` and the
return of `Wait`. -/
def listenerFailedReturned : State :=
  { listenerFailedState with
    stopped := true
    run := RunPc.returned (some (GoError.other 3))
    trace := Obs.runRet (some (GoError.other 3)) :: listenerFailedState.trace }

/-! ## Lemmas -/

theorem Step.of_step {s s1 : State} {ev : Event} (h : step s ev = some s1) : Step s ev s1 := by
  cases ev with
  | signal =>
    simp only [step] at h
    split at h
    · cases h; exact Step.signal s (by assumption)
    · cases h
  | teardownWake =>
    simp only [step] at h
    split at h
    · split at h
      · cases h; exact Step.teardownWake s (by assumption) (by assumption)
      · cases h
    · cases h
  | downReturn d =>
    simp only [step] at h
    split at h
    · cases h; exact Step.downReturn s d (by assumption)
    · cases h
  | upCall =>
    simp only [step] at h
    split at h
    · cases h; exact Step.upCall s (by assumption)
    · cases h
  | upReturn r =>
    simp only [step] at h
    split at h
    · split at h
      · cases h; exact Step.upFail s _ (by assumption)
      · cases h; exact Step.upOk s (by assumption)
    · cases h
  | shutdownWake =>
    simp only [step] at h
    split at h
    · split at h
      · cases h; exact Step.shutdownWake s (by assumption) (by assumption)
      · cases h
    · cases h
  | shutdownReturn =>
    simp only [step] at h
    split at h
    · cases h; exact Step.shutdownReturn s (by assumption)
    · cases h
  | lasReturn r =>
    simp only [step] at h
    split at h
    · split at h
      · cases h
      · rename_i hsv hg
        cases h
        refine Step.lasReturn s r hsv (fun hn => hg (Or.inl hn)) ?_
        intro hc
        cases hS : s.shutdown with
        | absent => exact absurd (Or.inr ⟨hc, Or.inl hS⟩) hg
        | waiting => exact absurd (Or.inr ⟨hc, Or.inr hS⟩) hg
        | inShutdown => exact Or.inl rfl
        | done => exact Or.inr rfl
    · cases h
  | groupDone t =>
    cases t with
    | teardown =>
      simp only [step] at h
      split at h
      · cases h; exact Step.teardownDone s _ (by assumption)
      · cases h
    | serve =>
      simp only [step] at h
      split at h
      · cases h; exact Step.serveDone s _ (by assumption)
      · cases h
  | waitReturn =>
    simp only [step] at h
    split at h
    · cases h; exact Step.waitReturn s _ _ (by assumption) (by assumption) (by assumption)
    · cases h

/-- Induction over schedules: a property that holds in `s0` and is kept by
every enabled step holds after every schedule run from `s0`. -/
theorem exec_induction (P : State → Prop)
    (hstep : ∀ s ev s1, P s → Step s ev s1 → P s1) :
    ∀ (evs : List Event) (s0 s : State), P s0 → exec s0 evs = some s → P s := by
  intro evs
  induction evs with
  | nil =>
    intro s0 s h0 h
    simp only [exec, Option.some.injEq] at h
    exact h ▸ h0
  | cons ev evs ih =>
    intro s0 s h0 h
    simp only [exec] at h
    cases hs : step s0 ev with
    | none => rw [hs] at h; cases h
    | some s1 =>
      rw [hs] at h
      exact ih s1 s (hstep s0 ev s1 h0 (Step.of_step hs)) h

theorem exec_append (s : State) (xs ys : List Event) :
    exec s (xs ++ ys) = (exec s xs).bind fun s1 => exec s1 ys := by
  induction xs generalizing s with
  | nil => rfl
  | cons x xs ih =>
    simp only [List.cons_append, exec]
    cases step s x with
    | none => rfl
    | some s1 => exact ih s1

theorem errCtxDone_eq (s : State) :
    s.errCtxDone = (s.eg.cancelled || (s.signalled || s.stopped)) := by
  simp [State.errCtxDone, errCtx, ctx, Ctx.done, State.flags]

theorem taskDone_err (g : Group) (r : Result) :
    (g.taskDone r).err = match g.err with | some e => some e | none => r := by
  cases r <;> cases h : g.err <;> simp [Group.taskDone, h]

theorem taskDone_cancelled (g : Group) (r : Result) :
    (g.taskDone r).cancelled = (g.cancelled || (g.err.isNone && r.isSome)) := by
  cases r <;> cases h : g.err <;> simp [Group.taskDone, h]

theorem ctl_init : Ctl init := by
  constructor <;> simp [Gophermart.init, errCtxDone_eq]

theorem ctl_step {s s1 : State} {ev : Event} (hc : Ctl s) (hs : Step s ev s1) : Ctl s1 := by
  obtain ⟨h1, h2, h3, h4, h5, h6, h7, h8, h9⟩ := hc
  constructor
  · clear h2 h3 h4 h5 h6 h7 h8 h9
    cases hs <;> simp_all
  · clear h1 h3 h4 h5 h6 h7 h8 h9
    cases hs <;> dsimp only <;> first | exact h2 | simp_all [Group.wait]
  · clear h1 h2 h4 h5 h6 h7 h8 h9
    rw [errCtxDone_eq] at h3
    cases hs <;> simp only [errCtxDone_eq, taskDone_cancelled] <;>
      first | exact h3 | (simp_all [Group.wait, errCtxDone_eq]; try tauto)
  · clear h1 h2 h3 h5 h6 h7 h8 h9
    cases hs with
    | teardownDone d h =>
      cases d <;> cases hE : s.eg.err <;> simp_all [Group.taskDone] <;> try assumption
    | serveDone r h =>
      cases r <;> cases hE : s.eg.err <;> simp_all [Group.taskDone] <;> try assumption
    | waitReturn d x h ht hs => simp_all [Group.wait]
    | _ => first | exact h4 | (simp_all <;> try assumption)
  · clear h1 h2 h3 h4 h6 h7 h8 h9
    cases hs with
    | teardownDone d h =>
      cases d <;> cases hE : s.eg.err <;> simp_all [Group.taskDone] <;> try assumption
    | serveDone r h =>
      cases r <;> cases hE : s.eg.err <;> simp_all [Group.taskDone] <;> try assumption
    | waitReturn d x h ht hs => simp_all [Group.wait]
    | _ => first | exact h5 | (simp_all <;> try assumption)
  · clear h1 h2 h3 h4 h5 h7 h8 h9
    cases hs with
    | teardownDone d h =>
      cases d <;> cases hE : s.eg.err <;> simp_all [Group.taskDone] <;> try assumption
    | serveDone r h =>
      cases r <;> cases hE : s.eg.err <;> simp_all [Group.taskDone] <;> try assumption
    | waitReturn d x h ht hs => simp_all [Group.wait]
    | _ => first | exact h6 | (simp_all <;> try assumption)
  · clear h1 h2 h3 h4 h5 h6 h8 h9
    cases hs with
    | teardownDone d h =>
      cases d <;> cases hE : s.eg.err <;> simp_all [Group.taskDone] <;> try assumption
    | serveDone r h =>
      cases r <;> cases hE : s.eg.err <;> simp_all [Group.taskDone] <;> try assumption
    | waitReturn d x h ht hs => simp_all [Group.wait]
    | _ => first | exact h7 | (simp_all <;> try assumption)
  · clear h1 h2 h3 h4 h5 h6 h7 h9
    rw [errCtxDone_eq] at h8
    cases hs <;> simp only [errCtxDone_eq, taskDone_cancelled] <;>
      first | exact h8 | (simp_all [Group.wait, errCtxDone_eq]; try tauto)
  · clear h1 h2 h3 h4 h5 h6 h7 h8
    cases hs <;> simp_all

theorem ctl_of_exec {evs : List Event} {s : State} (h : exec init evs = some s) : Ctl s :=
  exec_induction Ctl (fun _ _ _ hc hs => ctl_step hc hs) evs init s ctl_init h

theorem downInv_step {s s1 : State} {ev : Event} (h1 : DownInv s) (hs : Step s ev s1) :
    DownInv s1 := by
  unfold DownInv at *
  cases hs <;> (try simp only [*] at h1) <;> simp only [downCalls, downRets] <;> simp_all

theorem upInv_step {s s1 : State} {ev : Event} (h1 : UpInv s) (hs : Step s ev s1) :
    UpInv s1 := by
  unfold UpInv Served at *
  cases hs <;> (try simp only [*] at h1) <;>
    simp only [upCalls, upRets, listenCalls, lasRets] <;> simp_all

theorem shutInv_step {s s1 : State} {ev : Event} (hu : UpInv s) (h1 : ShutInv s)
    (hs : Step s ev s1) : ShutInv s1 := by
  unfold ShutInv at *
  unfold UpInv Served at hu
  cases hs <;> (try simp only [*] at h1 hu) <;>
    simp only [listenCalls, shutdownCalls] <;> simp_all <;>
    (cases hS : s.shutdown <;> simp_all)

theorem compInv_step {s s1 : State} {ev : Event} (h1 : CompInv s) (hs : Step s ev s1) :
    CompInv s1 := by
  unfold CompInv at *
  cases hs <;> (try simp only [*] at h1) <;>
    simp only [completions, TeardownPc.completed, ServePc.completed] at h1 ⊢ <;> simp_all

theorem firstError_append (l : List Result) (r : Result) :
    firstError (l ++ [r]) = match firstError l with | some e => some e | none => r := by
  induction l with
  | nil => cases r <;> rfl
  | cons x l ih => cases x <;> simp [firstError, ih]

theorem firstError_eq_none {l : List Result} :
    firstError l = none ↔ ∀ r ∈ l, r = none := by
  induction l with
  | nil => simp [firstError]
  | cons x l ih => cases x <;> simp [firstError, ih]

theorem inv_init : Inv init := by
  refine ⟨ctl_init, ?_, ?_, ?_, ?_, ?_, ?_, ?_, ?_, ?_⟩ <;>
    simp [Gophermart.init, DownInv, UpInv, ShutInv, CompInv, downCalls, downRets, upCalls, upRets,
      listenCalls, lasRets, shutdownCalls, completions, firstError, TeardownPc.completed,
      ServePc.completed]

theorem sig_step {s s1 : State} {ev : Event} (h1 : s.signalled = true ↔ Obs.signal ∈ s.trace)
    (hs : Step s ev s1) : s1.signalled = true ↔ Obs.signal ∈ s1.trace := by
  cases hs <;> simp_all

theorem err_step {s s1 : State} {ev : Event}
    (h1 : s.eg.err = firstError ((completions s.trace).map Prod.snd))
    (hs : Step s ev s1) : s1.eg.err = firstError ((completions s1.trace).map Prod.snd) := by
  cases hs <;>
    simp only [completions, List.map_append, List.map_cons, List.map_nil, firstError_append,
      taskDone_err, Group.wait, ← h1]

theorem early_step {s s1 : State} {ev : Event} (hc : Ctl s)
    (h1 : (s.serve = .start ∨ s.serve = .inUp) →
      s.stopped = false ∧ (s.teardown = .waiting → s.eg.cancelled = false ∧ s.eg.err = none) ∧
        (s.teardown ≠ .waiting → s.signalled = true))
    (hs : Step s ev s1) :
    (s1.serve = .start ∨ s1.serve = .inUp) →
      s1.stopped = false ∧
        (s1.teardown = .waiting → s1.eg.cancelled = false ∧ s1.eg.err = none) ∧
        (s1.teardown ≠ .waiting → s1.signalled = true) := by
  cases hs <;> simp_all [errCtxDone_eq]
  all_goals (intro hh; have h2 := h1 hh; simp_all)

theorem closed_step {s s1 : State} {ev : Event} (hu : UpInv s)
    (h1 : some GoError.ErrServerClosed ∈ lasRets s.trace →
      s.shutdown = .inShutdown ∨ s.shutdown = .done)
    (hs : Step s ev s1) :
    some GoError.ErrServerClosed ∈ lasRets s1.trace →
      s1.shutdown = .inShutdown ∨ s1.shutdown = .done := by
  unfold UpInv at hu
  cases hs <;> (try simp only [*] at hu) <;> simp only [lasRets] <;>
    first
    | exact h1
    | (simp_all <;> try tauto)

theorem quiet_step {s s1 : State} {ev : Event} (hc : Ctl s)
    (h1 : s.signalled = false → s.teardown ≠ .waiting →
      ∃ e, s.serve = .done (some e) ∧ s.eg.err = some e)
    (hs : Step s ev s1) :
    s1.signalled = false → s1.teardown ≠ .waiting →
      ∃ e, s1.serve = .done (some e) ∧ s1.eg.err = some e := by
  cases hs with
  | signal h => intro hh; cases hh
  | teardownWake h hd =>
    intro hsg _
    rw [errCtxDone_eq] at hd
    simp only [Bool.or_eq_true] at hd
    have hrun : ∀ r, s.run ≠ .returned r := by
      intro r hr
      obtain ⟨_, _, _, ⟨d, hd1⟩, _⟩ := hc.returned r hr
      rw [h] at hd1
      cases hd1
    rcases hd with hcan | hsig | hst
    · rcases hc.cancelled hcan with he | ⟨r, hr⟩
      · cases hE : s.eg.err with
        | none => exact absurd hE he
        | some e =>
          rcases hc.errFrom e hE with h5 | h5
          · rw [h] at h5
            cases h5
          · exact ⟨e, h5, rfl⟩
      · exact absurd hr (hrun r)
    · rw [hsig] at hsg
      cases hsg
    · obtain ⟨r, hr⟩ := hc.stopped_run hst
      exact absurd hr (hrun r)
  | downReturn d h =>
    intro hsg _
    exact h1 hsg (by rw [h]; intro hh; cases hh)
  | teardownDone d h =>
    intro hsg _
    obtain ⟨e, h2, h3⟩ := h1 hsg (by rw [h]; intro hh; cases hh)
    refine ⟨e, h2, ?_⟩
    cases d <;> simp [Group.taskDone, h3]
  | upCall h =>
    intro hsg hne
    obtain ⟨e, h2, _⟩ := h1 hsg hne
    rw [h] at h2
    cases h2
  | upFail e h =>
    intro hsg hne
    obtain ⟨e, h2, _⟩ := h1 hsg hne
    rw [h] at h2
    cases h2
  | upOk h =>
    intro hsg hne
    obtain ⟨e, h2, _⟩ := h1 hsg hne
    rw [h] at h2
    cases h2
  | lasReturn r h hr hg =>
    intro hsg hne
    obtain ⟨e, h2, _⟩ := h1 hsg hne
    rw [h] at h2
    cases h2
  | serveDone r h =>
    intro hsg hne
    obtain ⟨e, h2, _⟩ := h1 hsg hne
    rw [h] at h2
    cases h2
  | shutdownWake h hd => exact h1
  | shutdownReturn h => exact h1
  | waitReturn d x h ht hs =>
    intro hsg hne
    exact h1 hsg hne

theorem inv_step {s s1 : State} {ev : Event} (h : Inv s) (hs : Step s ev s1) : Inv s1 :=
  ⟨ctl_step h.ctl hs, downInv_step h.down hs, upInv_step h.up hs, shutInv_step h.up h.shut hs,
    compInv_step h.comp hs, sig_step h.sig hs, err_step h.err hs, early_step h.ctl h.early hs,
    closed_step h.up h.closed hs, quiet_step h.ctl h.quiet hs⟩

theorem inv_of_exec {evs : List Event} {s : State} (h : exec init evs = some s) : Inv s :=
  exec_induction Inv (fun _ _ _ hc hs => inv_step hc hs) evs init s inv_init h

/-! ## Order of the observations in the trace -/

theorem Preceded.nil (q : Obs → Prop) (P : List Obs → Prop) : Preceded q P [] := by
  intro later o earlier h
  simp at h

theorem Preceded.cons {q : Obs → Prop} {P : List Obs → Prop} {tr : List Obs} {o : Obs}
    (h : Preceded q P tr) (ho : q o → P tr) : Preceded q P (o :: tr) := by
  intro later x earlier hx hq
  cases later with
  | nil =>
    simp only [List.nil_append, List.cons.injEq] at hx
    obtain ⟨rfl, rfl⟩ := hx
    exact ho hq
  | cons y later =>
    simp only [List.cons_append, List.cons.injEq] at hx
    exact h later x earlier hx.2 hq

theorem ord_init : Ord init := by
  constructor <;> first | exact Preceded.nil _ _ | simp [Gophermart.init]

theorem signalOrServeFailed_of_done {s : State} (hi : Inv s)
    (h4 : ∀ r, s.serve = .done r → Obs.taskDone Task.serve r ∈ s.trace)
    (h : s.teardown = .waiting) (hd : s.errCtxDone = true) : SignalOrServeFailed s.trace := by
  rw [errCtxDone_eq] at hd
  simp only [Bool.or_eq_true] at hd
  have hrun : ∀ r, s.run ≠ .returned r := by
    intro r hr
    obtain ⟨_, _, _, ⟨d, hd1⟩, _⟩ := hi.ctl.returned r hr
    rw [h] at hd1
    cases hd1
  rcases hd with hc | hsig | hst
  · rcases hi.ctl.cancelled hc with he | ⟨r, hr⟩
    · cases hE : s.eg.err with
      | none => exact absurd hE he
      | some e =>
        rcases hi.ctl.errFrom e hE with h5 | h5
        · rw [h] at h5
          cases h5
        · exact Or.inr ⟨e, h4 _ h5⟩
    · exact absurd hr (hrun r)
  · exact Or.inl (hi.sig.mp hsig)
  · obtain ⟨r, hr⟩ := hi.ctl.stopped_run hst
    exact absurd hr (hrun r)

theorem cancelSeen_of_done {s : State} (hi : Inv s)
    (h4 : ∀ r, s.serve = .done r → Obs.taskDone Task.serve r ∈ s.trace)
    (h5 : ∀ r, s.teardown = .done r → Obs.taskDone Task.teardown r ∈ s.trace)
    (h6 : ∀ r, s.run = .returned r → Obs.runRet r ∈ s.trace)
    (hd : s.errCtxDone = true) : CancelledIn s.trace := by
  rw [errCtxDone_eq] at hd
  simp only [Bool.or_eq_true] at hd
  rcases hd with hc | hsig | hst
  · rcases hi.ctl.cancelled hc with he | ⟨r, hr⟩
    · cases hE : s.eg.err with
      | none => exact absurd hE he
      | some e =>
        rcases hi.ctl.errFrom e hE with h7 | h7
        · exact Or.inl (Or.inr ⟨_, e, h5 _ h7⟩)
        · exact Or.inl (Or.inr ⟨_, e, h4 _ h7⟩)
    · exact Or.inr ⟨r, h6 r hr⟩
  · exact Or.inl (Or.inl (hi.sig.mp hsig))
  · obtain ⟨r, hr⟩ := hi.ctl.stopped_run hst
    exact Or.inr ⟨r, h6 r hr⟩

theorem upReturnedNil_of_inUp {s : State} (hi : Inv s) (h : s.serve = .inUp) :
    UpReturnedNil (Obs.upRet none :: s.trace) := by
  have hu := hi.up
  unfold UpInv at hu
  simp only [h] at hu
  simp [UpReturnedNil, upCalls, upRets, listenCalls, hu]

theorem ord_step {s s1 : State} {ev : Event} (hi : Inv s) (h : Ord s) (hs : Step s ev s1) :
    Ord s1 := by
  obtain ⟨h1, h2, h3, h4, h5, h6, h7, h8, h9, h10, h11⟩ := h
  constructor
  · clear h2 h3 h5 h6
    cases hs <;> dsimp only <;>
      repeat (first | exact h1 | refine Preceded.cons ?_ ?_ | (intro hq; cases hq))
    exact signalOrServeFailed_of_done hi h4 (by assumption) (by assumption)
  · clear h1 h3 h4 h5 h6
    cases hs <;> dsimp only <;>
      repeat (first | exact h2 | refine Preceded.cons ?_ ?_ | (intro hq; cases hq))
    exact upReturnedNil_of_inUp hi (by assumption)
  · clear h1 h2
    cases hs <;> dsimp only <;>
      repeat (first | exact h3 | refine Preceded.cons ?_ ?_ | (intro hq; cases hq))
    exact cancelSeen_of_done hi h4 h5 h6 (by assumption)
  · clear h1 h2 h3 h5 h6
    cases hs <;> simp_all
  · clear h1 h2 h3 h4 h6
    cases hs <;> simp_all
  · clear h1 h2 h3 h4 h5
    cases hs <;> simp_all [Group.wait]
  · clear h1 h2 h3 h4 h5 h6 h8 h9 h10 h11 hi
    cases hs <;> simp_all [Group.wait] <;> try assumption
  · clear h1 h2 h3 h4 h5 h6 h7 h9 h10 h11 hi
    cases hs <;> simp_all [downCtx] <;> try assumption
  · clear h1 h2 h3 h4 h5 h6 h7 h8 h10 h11 hi
    cases hs <;> simp_all [shutdownCtx] <;> try assumption
  · clear h1 h2 h3 h4 h5 h6 h7 h8 h9 h11 hi
    cases hs <;> simp_all <;> try assumption
  · clear h1 h2 h3 h4 h5 h6 h7 h8 h9 h10 hi
    cases hs <;> simp_all <;> try assumption

theorem ord_of_exec {evs : List Event} {s : State} (h : exec init evs = some s) : Ord s := by
  have h2 : Inv s ∧ Ord s :=
    exec_induction (fun s => Inv s ∧ Ord s)
      (fun _ _ _ hc hs => ⟨inv_step hc.1 hs, ord_step hc.1 hc.2 hs⟩) evs init s
      ⟨inv_init, ord_init⟩ h
  exact h2.2

/-! ## Persistence along a schedule -/

theorem exec_no_signal (evs : List Event) (s0 s : State) (hsig : Event.signal ∉ evs)
    (h : exec s0 evs = some s) : s.signalled = s0.signalled := by
  induction evs generalizing s0 with
  | nil =>
    simp only [exec, Option.some.injEq] at h
    rw [h]
  | cons ev evs ih =>
    simp only [List.mem_cons, not_or] at hsig
    simp only [exec] at h
    cases hs : step s0 ev with
    | none => rw [hs] at h; cases h
    | some s1 =>
      rw [hs] at h
      rw [ih s1 hsig.2 h]
      have hS := Step.of_step hs
      cases hS <;> first | rfl | exact absurd rfl hsig.1

theorem err_persist (evs : List Event) (s0 s : State) (e : GoError) (he : s0.eg.err = some e)
    (h : exec s0 evs = some s) : s.eg.err = some e := by
  refine exec_induction (fun s => s.eg.err = some e) ?_ evs s0 s he h
  intro s ev s1 hP hS
  cases hS <;> simp_all [taskDone_err, Group.wait]

theorem serve_done_persist (evs : List Event) (s0 s : State) (r : Result)
    (he : s0.serve = .done r) (h : exec s0 evs = some s) : s.serve = .done r := by
  refine exec_induction (fun s => s.serve = .done r) ?_ evs s0 s he h
  intro s ev s1 hP hS
  cases hS <;> simp_all

theorem serve_returned_persist (evs : List Event) (s0 s : State) (r : Result)
    (he : s0.serve = .returned r) (h : exec s0 evs = some s) :
    s.serve = .returned r ∨ s.serve = .done r := by
  refine exec_induction (fun s => s.serve = .returned r ∨ s.serve = .done r) ?_ evs s0 s
    (Or.inl he) h
  intro s ev s1 hP hS
  cases hS <;> simp_all

theorem serve_from_serving (evs : List Event) (s0 s : State) (h0 : s0.serve = .serving)
    (h : exec s0 evs = some s) :
    s.serve = .serving ∨
      ∃ x, Event.lasReturn x ∈ evs ∧
        (s.serve = .returned (listen x) ∨ s.serve = .done (listen x)) := by
  induction evs generalizing s0 with
  | nil =>
    simp only [exec, Option.some.injEq] at h
    exact Or.inl (h ▸ h0)
  | cons ev evs ih =>
    simp only [exec] at h
    cases hs : step s0 ev with
    | none => rw [hs] at h; cases h
    | some s1 =>
      rw [hs] at h
      have hS := Step.of_step hs
      have key : s1.serve = .serving ∨
          ∃ x, ev = Event.lasReturn x ∧ s1.serve = .returned (listen x) := by
        cases hS <;> simp_all
      rcases key with h1 | ⟨x, rfl, h1⟩
      · rcases ih s1 h1 h with h2 | ⟨x, hx, h2⟩
        · exact Or.inl h2
        · exact Or.inr ⟨x, List.mem_cons_of_mem _ hx, h2⟩
      · exact Or.inr ⟨x, List.mem_cons_self _ _, serve_returned_persist evs s1 s _ h1 h⟩

theorem listenCalls_persist (evs : List Event) (s0 s : State) (r : Result)
    (he : s0.serve = .done r) (h : exec s0 evs = some s) :
    listenCalls s.trace = listenCalls s0.trace := by
  have h2 : s.serve = .done r ∧ listenCalls s.trace = listenCalls s0.trace := by
    refine exec_induction
      (fun s => s.serve = .done r ∧ listenCalls s.trace = listenCalls s0.trace) ?_ evs s0 s
      ⟨he, rfl⟩ h
    intro s ev s1 hP hS
    cases hS <;> simp_all [listenCalls]
  exact h2.2

theorem exec_snoc_some {pre : List Event} {ev : Event}
    (h : (exec init (pre ++ [ev])).isSome = true) :
    ∃ s0 s1, exec init pre = some s0 ∧ step s0 ev = some s1 := by
  rw [exec_append] at h
  cases h0 : exec init pre with
  | none => rw [h0] at h; simp at h
  | some s0 =>
    rw [h0] at h
    simp only [Option.some_bind, exec] at h
    cases h1 : step s0 ev with
    | none => rw [h1] at h; simp at h
    | some s1 => exact ⟨s0, s1, rfl, h1⟩

/-! ## Reading a trace that is split in two -/

theorem upCalls_append (xs ys : List Obs) : upCalls (xs ++ ys) = upCalls xs + upCalls ys := by
  induction xs with
  | nil => simp [upCalls]
  | cons o xs ih => cases o <;> simp [upCalls, ih] <;> omega

theorem listenCalls_append (xs ys : List Obs) :
    listenCalls (xs ++ ys) = listenCalls xs + listenCalls ys := by
  induction xs with
  | nil => simp [listenCalls]
  | cons o xs ih => cases o <;> simp [listenCalls, ih] <;> omega

theorem upRets_append (xs ys : List Obs) : upRets (xs ++ ys) = upRets xs ++ upRets ys := by
  induction xs with
  | nil => simp [upRets]
  | cons o xs ih => cases o <;> simp [upRets, ih]

theorem mem_upRets {tr : List Obs} {r : Result} (h : Obs.upRet r ∈ tr) : r ∈ upRets tr := by
  induction tr with
  | nil => cases h
  | cons o tr ih =>
    rcases List.mem_cons.mp h with h1 | h1
    · subst h1
      simp [upRets]
    · cases o <;> simp [upRets, ih h1]

theorem mem_completions {tr : List Obs} {t : Task} {r : Result}
    (h : Obs.taskDone t r ∈ tr) : (t, r) ∈ completions tr := by
  induction tr with
  | nil => cases h
  | cons o tr ih =>
    rcases List.mem_cons.mp h with h1 | h1
    · subst h1
      simp [completions]
    · cases o <;> simp [completions, ih h1]

theorem errCtxDone_iff_cancelledIn {s : State} (hi : Inv s) (ho : Ord s) :
    s.errCtxDone = true ↔ CancelledIn s.trace := by
  constructor
  · exact cancelSeen_of_done hi ho.serveDone ho.tearDone ho.ret
  · intro h
    rw [errCtxDone_eq]
    simp only [Bool.or_eq_true]
    rcases h with (h | ⟨t, e, h⟩) | ⟨r, h⟩
    · exact Or.inr (Or.inl (hi.sig.mpr h))
    · left
      apply hi.ctl.errCancel
      rw [hi.err]
      intro hn
      have := firstError_eq_none.mp hn (some e)
        (List.mem_map.mpr ⟨(t, some e), mem_completions h, rfl⟩)
      cases this
    · exact Or.inl (hi.ctl.returned r (ho.retOnly r h)).2.1

/-! ## The claims -/

/-- C1, counterexample: `Up` fails with error 7 and no signal has arrived by
then; a signal arrives before the errgroup wrapper has handled the serve
task's return, the teardown task wakes up, `Down` fails with error 4 and the
group handles that result first.  `Run` returns error 4, not error 7. -/
theorem up_error_can_be_masked :
    (exec init [Event.upCall, Event.upReturn (some (GoError.other 7))]).map
        (fun s => (s.serve, s.signalled)) =
      some (ServePc.returned (some (GoError.other 7)), false) ∧
    (exec init [Event.upCall, Event.upReturn (some (GoError.other 7)), Event.signal,
        Event.teardownWake, Event.downReturn (some (GoError.other 4)),
        Event.groupDone Task.teardown, Event.groupDone Task.serve, Event.waitReturn]).map
        (fun s => (s.run, upRets s.trace, downRets s.trace)) =
      some (RunPc.returned (some (GoError.other 4)), [some (GoError.other 7)],
        [some (GoError.other 4)]) := by
  decide

/-- C1, amended: when `Storage.Up` returns a non-nil error `e`, no termination
signal came before, and the task group handles the serve task's return next
(so no signal arrives before `e` is stored), `Run` returns exactly `e`: for
every result `d` of `Down` the run can be completed (teardown wakes, `Down`
returns `d`, the group handles it, `Wait` returns) and then returns `e` with
`Down` invoked once and `listen` never called; and every completed run that
continues from this point returns `e` with `Down` invoked exactly once,
whatever `Down` returned. -/
theorem up_error_is_reported (pre : List Event) (e : GoError)
    (hsig : Event.signal ∉ pre)
    (hen : (exec init (pre ++ [Event.upReturn (some e)])).isSome = true) :
    (∀ d : Result, ∃ s2,
        exec init (pre ++ [Event.upReturn (some e), Event.groupDone Task.serve,
          Event.teardownWake, Event.downReturn d, Event.groupDone Task.teardown,
          Event.waitReturn]) = some s2 ∧
        s2.run = RunPc.returned (some e) ∧ downCalls s2.trace = 1 ∧ downRets s2.trace = [d] ∧
        listenCalls s2.trace = 0) ∧
    (∀ (post : List Event) (s : State) (r : Result),
        exec init (pre ++ Event.upReturn (some e) :: Event.groupDone Task.serve :: post) =
          some s →
        s.run = RunPc.returned r →
        r = some e ∧ downCalls s.trace = 1 ∧ listenCalls s.trace = 0 ∧
          ∃ d, downRets s.trace = [d]) := by
  obtain ⟨s0, s1, h0, h1⟩ := exec_snoc_some hen
  have hi0 := inv_of_exec h0
  have hsg : s0.signalled = false := by
    rw [exec_no_signal pre init s0 hsig h0]; rfl
  have hS := Step.of_step h1
  -- the state in which `Up` returns
  have hup : s0.serve = .inUp := by cases hS; assumption
  obtain ⟨hst, hw, hnw⟩ := hi0.early (Or.inr hup)
  have htw : s0.teardown = .waiting := by
    by_contra hne
    rw [hnw hne] at hsg
    cases hsg
  obtain ⟨hcan, herr⟩ := hw htw
  have hrun0 : s0.run = .waiting := by
    cases hr : s0.run with
    | waiting => rfl
    | returned r =>
      obtain ⟨_, _, _, _, ⟨x, hx⟩⟩ := hi0.ctl.returned r hr
      rw [hup] at hx
      cases hx
  have hs1 : s1 = { s0 with
      serve := .returned (some e), trace := .upRet (some e) :: s0.trace } := by
    cases hS
    rfl
  -- the state after the group has handled the serve task's return
  have hs2 : ∃ s2, step s1 (Event.groupDone Task.serve) = some s2 ∧
      s2 = { s0 with
        serve := .done (some e)
        eg := { err := some e, cancelled := true }
        trace := .taskDone .serve (some e) :: .upRet (some e) :: s0.trace } := by
    rw [hs1]
    simp [step, Group.taskDone, herr]
  obtain ⟨s2, hst2, hs2⟩ := hs2
  have hl2 : listenCalls s2.trace = 0 := by
    have hu := hi0.up
    unfold UpInv at hu
    simp only [hup] at hu
    rw [hs2]
    simp [listenCalls, hu]
  have hd0 : downCalls s0.trace = 0 ∧ downRets s0.trace = [] := by
    have hd := hi0.down
    unfold DownInv at hd
    simpa only [htw] using hd
  constructor
  · intro d
    have hx : ∃ s3, exec s2 [Event.teardownWake, Event.downReturn d,
        Event.groupDone Task.teardown, Event.waitReturn] =
        some s3 ∧ s3.run = .returned (some e) ∧
          s3.trace = .runRet (some e) :: .taskDone .teardown d :: .downRet d ::
            .downCall downCtx :: s2.trace := by
      rw [hs2]
      cases d <;>
        simp [exec, step, htw, hrun0, errCtxDone_eq, Group.taskDone, Group.wait]
    obtain ⟨s3, hx, hr3, ht3⟩ := hx
    have hfull : exec init (pre ++ [Event.upReturn (some e), Event.groupDone Task.serve,
        Event.teardownWake, Event.downReturn d, Event.groupDone Task.teardown,
        Event.waitReturn]) = some s3 := by
      rw [exec_append, h0]
      simp only [Option.some_bind, exec, h1, hst2]
      exact hx
    refine ⟨s3, hfull, hr3, ?_, ?_, ?_⟩
    · rw [ht3, hs2]
      simp [downCalls, hd0.1]
    · rw [ht3, hs2]
      simp [downRets, hd0.2]
    · rw [ht3]
      simp [listenCalls, hl2]
  · intro post s r hrun hret
    have hpost : exec s2 post = some s := by
      rw [exec_append, h0] at hrun
      simpa [exec, h1, hst2] using hrun
    have hi := inv_of_exec hrun
    obtain ⟨hr, _, _, ⟨d, hd⟩, _⟩ := hi.ctl.returned r hret
    have he2 : s2.eg.err = some e := by rw [hs2]
    have he := err_persist post s2 s e he2 hpost
    have hdn := hi.down
    unfold DownInv at hdn
    simp only [hd] at hdn
    have hsv : s2.serve = .done (some e) := by rw [hs2]
    refine ⟨hr.trans he, hdn.1, ?_, d, hdn.2⟩
    rw [listenCalls_persist post s2 s _ hsv hpost, hl2]

/-- Witness for the amended C1: `Up` fails with error 7 right after being
called. -/
theorem up_error_is_reported_witness :
    Event.signal ∉ [Event.upCall] ∧
    (exec init ([Event.upCall] ++ [Event.upReturn (some (GoError.other 7))])).isSome = true ∧
    (∀ d : Result, ∃ s2,
        exec init ([Event.upCall] ++ [Event.upReturn (some (GoError.other 7)),
          Event.groupDone Task.serve, Event.teardownWake, Event.downReturn d,
          Event.groupDone Task.teardown, Event.waitReturn]) = some s2 ∧
        s2.run = RunPc.returned (some (GoError.other 7)) ∧ downCalls s2.trace = 1 ∧
        downRets s2.trace = [d] ∧ listenCalls s2.trace = 0) ∧
    (∀ (post : List Event) (s : State) (r : Result),
        exec init ([Event.upCall] ++ Event.upReturn (some (GoError.other 7)) ::
          Event.groupDone Task.serve :: post) = some s →
        s.run = RunPc.returned r →
        r = some (GoError.other 7) ∧ downCalls s.trace = 1 ∧ listenCalls s.trace = 0 ∧
          ∃ d, downRets s.trace = [d]) :=
  ⟨by decide, by decide,
    up_error_is_reported [Event.upCall] (GoError.other 7) (by decide) (by decide)⟩

/-- C4: `listen` maps the terminal result of `ListenAndServe` to its own
result: nil and `http.ErrServerClosed` both give nil, every other error is
returned unchanged; in a run, the serve function returns exactly that value
when `ListenAndServe` ends. -/
theorem listen_filters_server_closed :
    listen none = none ∧
    listen (some GoError.ErrServerClosed) = none ∧
    (∀ n : Nat, listen (some (GoError.other n)) = some (GoError.other n)) ∧
    (∀ (s : State) (r : Result),
        (step s (Event.lasReturn r)).map State.serve = none ∨
        (step s (Event.lasReturn r)).map State.serve =
          some (ServePc.returned (listen r))) := by
  refine ⟨by decide, by decide, fun n => by simp [listen], ?_⟩
  intro s r
  cases h : step s (Event.lasReturn r) with
  | none => exact Or.inl rfl
  | some s1 =>
    right
    have hS := Step.of_step h
    cases hS
    rfl

/-- C2, counterexample: `Up` succeeds, the listener serves, a signal arrives,
the listener stops with `http.ErrServerClosed`, and `Down` returns error 1:
`Run` returns error 1, not nil (with `Down` invoked once). -/
theorem signal_shutdown_not_always_nil :
    (exec init [Event.upCall, Event.upReturn none]).map
        (fun s => (s.serve, s.errCtxDone)) = some (ServePc.serving, false) ∧
    (exec init [Event.upCall, Event.upReturn none, Event.signal, Event.shutdownWake,
        Event.lasReturn (some GoError.ErrServerClosed), Event.groupDone Task.serve,
        Event.teardownWake, Event.downReturn (some (GoError.other 1)),
        Event.groupDone Task.teardown, Event.waitReturn]).map
        (fun s => (s.run, downCalls s.trace)) =
      some (RunPc.returned (some (GoError.other 1)), 1) := by
  decide

/-- C2, amended: when `Up` succeeded and the listener is serving with the
context not yet cancelled, and a termination signal arrives, then for every
result `d` of `Down` the run can be completed (shutdown requested, the listener
stops with `http.ErrServerClosed`, `Down` returns `d`, the group handles both
returns, `Wait` returns) and returns `d`; and every completed run from there in
which the listener ends with nil or `http.ErrServerClosed` returns exactly what
`Down` returned (nil when `Down` returned nil), with `Down` invoked exactly
once. -/
theorem signal_while_serving_returns_down_result (pre : List Event)
    (hserv : (exec init pre).map (fun s => (s.serve, s.errCtxDone)) =
      some (ServePc.serving, false)) :
    (∀ d : Result, ∃ s2,
        exec init (pre ++ [Event.signal, Event.shutdownWake,
          Event.lasReturn (some GoError.ErrServerClosed), Event.groupDone Task.serve,
          Event.teardownWake, Event.downReturn d, Event.groupDone Task.teardown,
          Event.waitReturn]) = some s2 ∧
        s2.run = RunPc.returned d ∧ downCalls s2.trace = 1 ∧ downRets s2.trace = [d]) ∧
    (∀ (post : List Event) (s : State) (r : Result),
        exec init (pre ++ Event.signal :: post) = some s →
        (∀ x, Event.lasReturn x ∈ post → listen x = none) →
        s.run = RunPc.returned r →
        downCalls s.trace = 1 ∧ downRets s.trace = [r]) := by
  cases h0 : exec init pre with
  | none => rw [h0] at hserv; cases hserv
  | some s0 =>
  rw [h0] at hserv
  simp only [Option.map_some', Option.some.injEq, Prod.mk.injEq] at hserv
  obtain ⟨hsv, hlive⟩ := hserv
  have hi0 := inv_of_exec h0
  have hl := hlive
  rw [errCtxDone_eq] at hl
  simp only [Bool.or_eq_false_iff] at hl
  obtain ⟨hcan, hsg, hst⟩ := hl
  have htw : s0.teardown = .waiting := by
    by_contra hne
    rw [hi0.ctl.tearWoke hne] at hlive
    cases hlive
  have hsh : s0.shutdown = .waiting := by
    cases hS : s0.shutdown with
    | absent => exact absurd hS (hi0.ctl.servingShut hsv)
    | waiting => rfl
    | inShutdown => rw [hi0.ctl.shutWoke (Or.inl hS)] at hlive; cases hlive
    | done => rw [hi0.ctl.shutWoke (Or.inr hS)] at hlive; cases hlive
  have hrun0 : s0.run = .waiting := by
    cases hr : s0.run with
    | waiting => rfl
    | returned r =>
      obtain ⟨_, _, hs, _, _⟩ := hi0.ctl.returned r hr
      rw [hs] at hst
      cases hst
  have herr : s0.eg.err = none := by
    by_contra hne
    rw [hi0.ctl.errCancel hne] at hcan
    cases hcan
  have heg : s0.eg = { err := none, cancelled := false } := by
    cases hE : s0.eg with
    | mk a b =>
      rw [hE] at herr hcan
      simp only at herr hcan
      rw [herr, hcan]
  have hd0 : downCalls s0.trace = 0 ∧ downRets s0.trace = [] := by
    have hd := hi0.down
    unfold DownInv at hd
    simpa only [htw] using hd
  constructor
  · intro d
    have hx : ∃ s2, exec s0 [Event.signal, Event.shutdownWake,
          Event.lasReturn (some GoError.ErrServerClosed), Event.groupDone Task.serve,
          Event.teardownWake, Event.downReturn d, Event.groupDone Task.teardown,
          Event.waitReturn] = some s2 ∧ s2.run = .returned d ∧
          s2.trace = .runRet d :: .taskDone .teardown d :: .downRet d :: .downCall downCtx ::
            .taskDone .serve none :: .lasRet (some GoError.ErrServerClosed) ::
            .shutdownCall shutdownCtx :: .signal :: s0.trace := by
      cases d <;>
        simp [exec, step, hsv, htw, hsh, hrun0, heg, errCtxDone_eq, Group.taskDone, Group.wait,
          listen]
    obtain ⟨s2, hx, hr2, ht2⟩ := hx
    refine ⟨s2, ?_, hr2, ?_, ?_⟩
    · rw [exec_append, h0]
      exact hx
    · rw [ht2]
      simp [downCalls, hd0.1]
    · rw [ht2]
      simp [downRets, hd0.2]
  · intro post s r hrun hnorm hret
    have hpost : exec s0 (Event.signal :: post) = some s := by
      rw [exec_append, h0] at hrun
      exact hrun
    have hi := inv_of_exec hrun
    obtain ⟨hr, _, _, ⟨d, hd⟩, ⟨x, hx⟩⟩ := hi.ctl.returned r hret
    have hx0 : x = none := by
      rcases serve_from_serving _ s0 s hsv hpost with h1 | ⟨y, hy, h1⟩
      · rw [hx] at h1
        cases h1
      · rw [hx] at h1
        have h2 : x = listen y := by
          rcases h1 with h1 | h1
          · cases h1
          · exact ServePc.done.inj h1
        simp only [List.mem_cons] at hy
        rcases hy with hy | hy
        · cases hy
        · rw [h2]
          exact hnorm y hy
    subst hx0
    have hdn := hi.down
    unfold DownInv at hdn
    simp only [hd] at hdn
    have hrd : r = d := by
      have he := hi.err
      have hc := hi.comp
      unfold CompInv at hc
      simp only [hd, hx, TeardownPc.completed, ServePc.completed] at hc
      rw [hr, he]
      rcases hc with hc | hc <;> rw [hc] <;> cases d <;> rfl
    rw [hrd]
    exact hdn

/-- Witness for the amended C2: the signal arrives right after the listener
started. -/
theorem signal_while_serving_returns_down_result_witness :
    (exec init [Event.upCall, Event.upReturn none]).map (fun s => (s.serve, s.errCtxDone)) =
      some (ServePc.serving, false) ∧
    (∀ d : Result, ∃ s2,
        exec init ([Event.upCall, Event.upReturn none] ++ [Event.signal, Event.shutdownWake,
          Event.lasReturn (some GoError.ErrServerClosed), Event.groupDone Task.serve,
          Event.teardownWake, Event.downReturn d, Event.groupDone Task.teardown,
          Event.waitReturn]) = some s2 ∧
        s2.run = RunPc.returned d ∧ downCalls s2.trace = 1 ∧ downRets s2.trace = [d]) :=
  ⟨by decide,
    (signal_while_serving_returns_down_result [Event.upCall, Event.upReturn none]
      (by decide)).1⟩

theorem completions_of_done {s : State} {d x : Result} (hi : Inv s)
    (ht : s.teardown = TeardownPc.done d) (hs : s.serve = ServePc.done x) :
    completions s.trace = [(Task.teardown, d), (Task.serve, x)] ∨
      completions s.trace = [(Task.serve, x), (Task.teardown, d)] := by
  have hc := hi.comp
  unfold CompInv at hc
  simpa only [ht, hs, TeardownPc.completed, ServePc.completed, List.singleton_append] using hc

/-- C3: once both tasks have completed (`d` from teardown, `x` from serve,
each handled by the group), the completions are recorded in one of the two
orders, the value `Wait` hands to `Run` is the first non-nil result in
completion order (the teardown task is submitted first, yet its error is
reported only if it completed first or the serve task returned nil), that value
is nil exactly when both results are nil, and `Run` returns it: `Wait` is
enabled and returns it, and a run that has returned has returned it. -/
theorem run_returns_first_error (evs : List Event) (s : State) (d x : Result)
    (h : exec init evs = some s) (ht : s.teardown = TeardownPc.done d)
    (hs : s.serve = ServePc.done x) :
    ((completions s.trace = [(Task.teardown, d), (Task.serve, x)] ∧
        firstError ((completions s.trace).map Prod.snd) =
          (match d with | some e => some e | none => x)) ∨
      (completions s.trace = [(Task.serve, x), (Task.teardown, d)] ∧
        firstError ((completions s.trace).map Prod.snd) =
          (match x with | some e => some e | none => d))) ∧
    (firstError ((completions s.trace).map Prod.snd) = none ↔ d = none ∧ x = none) ∧
    (s.run = RunPc.waiting →
      (exec init (evs ++ [Event.waitReturn])).map State.run =
        some (RunPc.returned (firstError ((completions s.trace).map Prod.snd)))) ∧
    (∀ r, s.run = RunPc.returned r → r = firstError ((completions s.trace).map Prod.snd)) := by
  have hi := inv_of_exec h
  have hc := completions_of_done hi ht hs
  refine ⟨?_, ?_, ?_, ?_⟩
  · rcases hc with hc | hc
    · left
      refine ⟨hc, ?_⟩
      rw [hc]
      cases d <;> cases x <;> rfl
    · right
      refine ⟨hc, ?_⟩
      rw [hc]
      cases d <;> cases x <;> rfl
  · rcases hc with hc | hc <;> rw [hc] <;> cases d <;> cases x <;> simp [firstError]
  · intro hw
    rw [exec_append, h, ← hi.err]
    simp [exec, step, hw, ht, hs, Group.wait]
  · intro r hr
    rw [← hi.err]
    exact (hi.ctl.returned r hr).1

/-- Witness for C3: the listener fails with error 3, then `Down` fails with
error 4; the serve task completed first, so error 3 is what `Run` returns,
although the teardown task was submitted first. -/
theorem run_returns_first_error_witness :
    exec init (listenerFailureSchedule (some (GoError.other 4))) = some listenerFailedState ∧
    listenerFailedState.teardown = TeardownPc.done (some (GoError.other 4)) ∧
    listenerFailedState.serve = ServePc.done (some (GoError.other 3)) ∧
    completions listenerFailedState.trace =
      [(Task.serve, some (GoError.other 3)), (Task.teardown, some (GoError.other 4))] ∧
    (exec init (listenerFailureSchedule (some (GoError.other 4)) ++
        [Event.waitReturn])).map State.run =
      some (RunPc.returned (some (GoError.other 3))) :=
  ⟨by decide, rfl, rfl, rfl,
    (run_returns_first_error (listenerFailureSchedule (some (GoError.other 4)))
      listenerFailedState (some (GoError.other 4)) (some (GoError.other 3))
      (by decide) rfl rfl).2.2.1 rfl⟩

/-- C5, counterexample: the listener fails with error 3 (no signal), which
cancels the context; `Down` then fails with error 4.  `Run` returns error 3, the
same value it returns when `Down` succeeds: the error of `Down` is dropped by
the task group and nothing reports it. -/
theorem down_error_can_be_dropped :
    (exec init (listenerFailureSchedule (some (GoError.other 4)) ++ [Event.waitReturn])).map
        (fun s => (s.run, s.signalled, downRets s.trace)) =
      some (RunPc.returned (some (GoError.other 3)), false, [some (GoError.other 4)]) ∧
    (exec init (listenerFailureSchedule none ++ [Event.waitReturn])).map
        (fun s => (s.run, s.signalled, downRets s.trace)) =
      some (RunPc.returned (some (GoError.other 3)), false, [none]) := by
  decide

/-- C5, amended: in every run that has returned, `Storage.Down` was invoked
exactly once and has returned, also when the cancellation came from a failure
of the serve task and not from a signal; its result `d` is what the teardown
task handed to the task group; `Run` returns `d` itself whenever the serve task
returned nil, and `Run` never returns nil when `d` is an error; but when no
signal arrived, the serve task has failed with some `e` and `Run` returns `e`,
whatever `d` is.  No reachable state, returned or not, has more than one `Down`
invocation. -/
theorem down_invoked_exactly_once (evs : List Event) (s : State) (r : Result)
    (h : exec init evs = some s) (hret : s.run = RunPc.returned r) :
    downCalls s.trace = 1 ∧
    (∃ d, downRets s.trace = [d] ∧ s.teardown = TeardownPc.done d ∧
      (Task.teardown, d) ∈ completions s.trace ∧ (r = none → d = none) ∧
      (s.serve = ServePc.done none → r = d) ∧
      (s.signalled = false → ∃ e, s.serve = ServePc.done (some e) ∧ r = some e)) ∧
    (∀ (evs1 : List Event) (s1 : State), exec init evs1 = some s1 → downCalls s1.trace ≤ 1) := by
  have hi := inv_of_exec h
  obtain ⟨hr, _, _, ⟨d, hd⟩, ⟨x, hx⟩⟩ := hi.ctl.returned r hret
  have hdn := hi.down
  unfold DownInv at hdn
  simp only [hd] at hdn
  have hc := completions_of_done hi hd hx
  have hrf : r = firstError ((completions s.trace).map Prod.snd) := by
    rw [← hi.err]
    exact hr
  refine ⟨hdn.1, ⟨d, hdn.2, hd, ?_, ?_, ?_, ?_⟩, ?_⟩
  · rcases hc with hc | hc <;> rw [hc] <;> simp
  · intro h0
    rw [h0] at hrf
    exact firstError_eq_none.mp hrf.symm d
      (List.mem_map.mpr ⟨(Task.teardown, d), by rcases hc with hc | hc <;> rw [hc] <;> simp, rfl⟩)
  · intro hs0
    rw [hx] at hs0
    simp only [ServePc.done.injEq] at hs0
    subst hs0
    rw [hrf]
    rcases hc with hc | hc <;> rw [hc] <;> cases d <;> rfl
  · intro hsg
    obtain ⟨e, h1, h2⟩ := hi.quiet hsg (by rw [hd]; intro hh; cases hh)
    exact ⟨e, h1, hr.trans h2⟩
  · intro evs1 s1 h1
    have hd1 := (inv_of_exec h1).down
    unfold DownInv at hd1
    cases ht : s1.teardown <;> simp only [ht] at hd1 <;> omega

/-- Witness for the amended C5: the listener fails with error 3 (no signal),
which cancels the context; `Down` then runs once and returns error 4; `Run`
returns error 3. -/
theorem down_invoked_exactly_once_witness :
    exec init (listenerFailureSchedule (some (GoError.other 4)) ++ [Event.waitReturn]) =
      some listenerFailedReturned ∧
    listenerFailedReturned.run = RunPc.returned (some (GoError.other 3)) ∧
    downCalls listenerFailedReturned.trace = 1 ∧
    (∃ d, downRets listenerFailedReturned.trace = [d] ∧
      listenerFailedReturned.teardown = TeardownPc.done d ∧
      (Task.teardown, d) ∈ completions listenerFailedReturned.trace ∧
      (some (GoError.other 3) = none → d = none) ∧
      (listenerFailedReturned.serve = ServePc.done none → some (GoError.other 3) = d) ∧
      (listenerFailedReturned.signalled = false →
        ∃ e, listenerFailedReturned.serve = ServePc.done (some e) ∧
          some (GoError.other 3) = some e)) :=
  ⟨by decide, rfl,
    (down_invoked_exactly_once
      (listenerFailureSchedule (some (GoError.other 4)) ++ [Event.waitReturn])
      listenerFailedReturned (some (GoError.other 3)) (by decide) rfl).1,
    (down_invoked_exactly_once
      (listenerFailureSchedule (some (GoError.other 4)) ++ [Event.waitReturn])
      listenerFailedReturned (some (GoError.other 3)) (by decide) rfl).2.1⟩

theorem listen_eq_none {x : Result} (hx : x ≠ none) (h : listen x = none) :
    x = some GoError.ErrServerClosed := by
  cases x with
  | none => exact absurd rfl hx
  | some e =>
    cases e with
    | ErrServerClosed => rfl
    | other n => simp [listen] at h

theorem done_of_served_nil {s : State} (hi : Inv s)
    (h : s.serve = ServePc.returned none ∨ s.serve = ServePc.done none) :
    s.errCtxDone = true := by
  have hu := hi.up
  unfold UpInv at hu
  have hsv : Served s.trace none := by
    rcases h with h | h <;> simpa only [h] using hu
  obtain ⟨_, ⟨e, he, _⟩ | ⟨x, hx, hl, _, _, hlas⟩⟩ := hsv
  · cases he
  · have hc := listen_eq_none hx hl.symm
    apply hi.ctl.shutWoke
    apply hi.closed
    rw [hlas, hc]
    simp

/-- C6: in every reachable state, once a task of the group has returned,
`errCtx` is cancelled.  If the teardown function has returned, `errCtx` is done.
If the serve function has returned nil, `errCtx` is done.  If the serve
function has returned an error `e`, the group's handling of that return, which
is enabled at once, leaves `errCtx` done, and `errCtx` is done in every state in
which the serve task has completed with `e`.  So no task has returned, with nil
or with an error, while the context of its sibling stays live. -/
theorem context_cancelled_once_a_task_returns (evs : List Event) (s : State)
    (h : exec init evs = some s) :
    (∀ d, s.teardown = TeardownPc.returned d ∨ s.teardown = TeardownPc.done d →
      s.errCtxDone = true) ∧
    (s.serve = ServePc.returned none ∨ s.serve = ServePc.done none → s.errCtxDone = true) ∧
    (∀ e, s.serve = ServePc.done (some e) → s.errCtxDone = true) ∧
    (∀ e, s.serve = ServePc.returned (some e) →
      (step s (Event.groupDone Task.serve)).map State.errCtxDone = some true) := by
  have hi := inv_of_exec h
  refine ⟨?_, done_of_served_nil hi, ?_, ?_⟩
  · intro d hd
    apply hi.ctl.tearWoke
    rcases hd with hd | hd <;> rw [hd] <;> intro hc <;> cases hc
  · intro e he
    rw [errCtxDone_eq]
    have hne : s.eg.err ≠ none := by
      intro hn
      have := (hi.ctl.errNone hn).2 _ he
      cases this
    simp [hi.ctl.errCancel hne]
  · intro e he
    cases hE : s.eg.err with
    | none => simp [step, he, errCtxDone_eq, Group.taskDone, hE]
    | some e0 =>
      have hcan := hi.ctl.errCancel (by rw [hE]; intro hh; cases hh)
      simp [step, he, errCtxDone_eq, Group.taskDone, hE, hcan]

/-- Witness for C6: `Up` fails with error 7 and the group handles that return;
`errCtx` is done. -/
theorem context_cancelled_once_a_task_returns_witness :
    exec init upFailedSchedule = some upFailedState ∧
    upFailedState.serve = ServePc.done (some (GoError.other 7)) ∧
    upFailedState.errCtxDone = true :=
  ⟨by decide, rfl,
    (context_cancelled_once_a_task_returns upFailedSchedule upFailedState
      (by decide)).2.2.1 (GoError.other 7) rfl⟩

/-- C7: in every reachable state, each call of `listen` in the trace comes
after `Up` was called once and returned nil, nothing of `Up` happens after it
and `listen` is called at most once; while `Up` is in progress `listen` has not
been called; and if `Up` returned a non-nil error `e`, the serve function has
returned `e` (in the same step; the task is then returned or completed with
`e`), `listen` was never called and the goroutine that would shut the server
down was never started. -/
theorem listen_only_after_up_succeeded (evs : List Event) (s : State)
    (h : exec init evs = some s) :
    (∀ later c earlier, s.trace = later ++ Obs.listenCall c :: earlier →
      upCalls earlier = 1 ∧ upRets earlier = [none] ∧ listenCalls earlier = 0 ∧
        upCalls later = 0 ∧ upRets later = [] ∧ listenCalls later = 0) ∧
    (s.serve = ServePc.start ∨ s.serve = ServePc.inUp → listenCalls s.trace = 0) ∧
    (∀ e, Obs.upRet (some e) ∈ s.trace →
      (s.serve = ServePc.returned (some e) ∨ s.serve = ServePc.done (some e)) ∧
        listenCalls s.trace = 0 ∧ s.shutdown = ShutdownPc.absent) ∧
    (∀ e, (step s (Event.upReturn (some e))).map State.serve = none ∨
      (step s (Event.upReturn (some e))).map (fun s1 => (s1.serve, listenCalls s1.trace)) =
        some (ServePc.returned (some e), 0)) := by
  have hi := inv_of_exec h
  have ho := ord_of_exec h
  have hu := hi.up
  unfold UpInv Served at hu
  refine ⟨?_, ?_, ?_, ?_⟩
  · intro later c earlier htr
    obtain ⟨h1, h2, h3⟩ := ho.listen later _ earlier htr trivial
    have hl : listenCalls s.trace = listenCalls later + 1 := by
      rw [htr, listenCalls_append]
      simp [listenCalls, h3]
    have hcu : upCalls s.trace = upCalls later + 1 := by
      rw [htr, upCalls_append]
      simp [upCalls, h1]
    have hru : upRets s.trace = upRets later ++ [none] := by
      rw [htr, upRets_append]
      simp [upRets, h2]
    have key : upCalls s.trace = 1 ∧ upRets s.trace = [none] ∧ listenCalls s.trace = 1 := by
      cases hsv : s.serve with
      | start => simp only [hsv] at hu; omega
      | inUp => simp only [hsv] at hu; omega
      | serving => simp only [hsv] at hu; exact ⟨hu.1, hu.2.1, hu.2.2.1⟩
      | returned r =>
        simp only [hsv] at hu
        obtain ⟨hu1, ⟨e, _, _, hu3, _⟩ | ⟨x, _, _, hu2, hu3, _⟩⟩ := hu
        · omega
        · exact ⟨hu1, hu2, hu3⟩
      | done r =>
        simp only [hsv] at hu
        obtain ⟨hu1, ⟨e, _, _, hu3, _⟩ | ⟨x, _, _, hu2, hu3, _⟩⟩ := hu
        · omega
        · exact ⟨hu1, hu2, hu3⟩
    refine ⟨h1, h2, h3, by omega, ?_, by omega⟩
    have hlen := congrArg List.length hru
    rw [key.2.1] at hlen
    simp only [List.length_singleton, List.length_append] at hlen
    exact List.length_eq_zero.mp (by omega)
  · rintro (hsv | hsv) <;> simp only [hsv] at hu <;> exact hu.2.2.1
  · intro e he
    have hm := mem_upRets he
    have key : (s.serve = ServePc.returned (some e) ∨ s.serve = ServePc.done (some e)) ∧
        listenCalls s.trace = 0 := by
      cases hsv : s.serve with
      | start => simp only [hsv] at hu; rw [hu.2.1] at hm; cases hm
      | inUp => simp only [hsv] at hu; rw [hu.2.1] at hm; cases hm
      | serving => simp only [hsv] at hu; rw [hu.2.1] at hm; simp at hm
      | returned r =>
        simp only [hsv] at hu
        obtain ⟨hu1, ⟨e1, hr, hu2, hu3, _⟩ | ⟨x, _, _, hu2, hu3, _⟩⟩ := hu
        · rw [hu2] at hm
          simp only [List.mem_singleton, Option.some.injEq] at hm
          subst hm
          exact ⟨Or.inl (by rw [hr]), hu3⟩
        · rw [hu2] at hm
          simp at hm
      | done r =>
        simp only [hsv] at hu
        obtain ⟨hu1, ⟨e1, hr, hu2, hu3, _⟩ | ⟨x, _, _, hu2, hu3, _⟩⟩ := hu
        · rw [hu2] at hm
          simp only [List.mem_singleton, Option.some.injEq] at hm
          subst hm
          exact ⟨Or.inr (by rw [hr]), hu3⟩
        · rw [hu2] at hm
          simp at hm
    refine ⟨key.1, key.2, ?_⟩
    have hsh := hi.shut
    unfold ShutInv at hsh
    cases hS : s.shutdown <;> simp only [hS] at hsh <;> first | rfl | omega
  · intro e
    cases hst : step s (Event.upReturn (some e)) with
    | none => exact Or.inl rfl
    | some s1 =>
      right
      have hS := Step.of_step hst
      cases hS with
      | upFail e hin =>
        simp only [hin] at hu
        simp [listenCalls, hu.2.2.1]

/-- Witness for C7: in the run where `Up` returns nil, the call of `listen`
has the call and the nil return of `Up` before it. -/
theorem listen_only_after_up_succeeded_witness :
    exec init [Event.upCall, Event.upReturn none] = some servingState ∧
    servingState.trace = [] ++ Obs.listenCall errCtx :: [Obs.upRet none, Obs.upCall errCtx] ∧
    (upCalls [Obs.upRet none, Obs.upCall errCtx] = 1 ∧
      upRets [Obs.upRet none, Obs.upCall errCtx] = [none] ∧
      listenCalls [Obs.upRet none, Obs.upCall errCtx] = 0 ∧
      upCalls [] = 0 ∧ upRets [] = [] ∧ listenCalls [] = 0) :=
  ⟨by decide, rfl,
    (listen_only_after_up_succeeded [Event.upCall, Event.upReturn none] servingState
      (by decide)).1 [] errCtx [Obs.upRet none, Obs.upCall errCtx] rfl⟩

/-- C8: in every reachable state, each call of `Down` in the trace was made
with `context.Background()` and after a cancellation of `errCtx` was already
recorded (signal, failed task or returned `Wait`), where a recorded
cancellation is exactly when `errCtx` is done; the teardown task can only wake
up when `errCtx` is done.  The context given to `Down` is not `errCtx`, is not
derived from it, and is never done, whatever signal or task failure occurs. -/
theorem down_only_after_cancellation (evs : List Event) (s : State)
    (h : exec init evs = some s) :
    (∀ later c earlier, s.trace = later ++ Obs.downCall c :: earlier →
      c = Ctx.background ∧ CancelledIn earlier) ∧
    (s.errCtxDone = true ↔ CancelledIn s.trace) ∧
    ((step s Event.teardownWake).isSome = true → s.errCtxDone = true) ∧
    (s.teardown ≠ TeardownPc.waiting → s.errCtxDone = true) ∧
    downCtx = Ctx.background ∧ downCtx ≠ errCtx ∧ downCtx.derivedFrom errCtx = false ∧
    (∀ f : Flags, downCtx.done f = false) := by
  have hi := inv_of_exec h
  have ho := ord_of_exec h
  refine ⟨?_, errCtxDone_iff_cancelledIn hi ho, ?_, hi.ctl.tearWoke, rfl, by decide, by decide,
    fun f => rfl⟩
  · intro later c earlier htr
    refine ⟨ho.downArg c (by rw [htr]; simp), ?_⟩
    rcases ho.down later _ earlier htr trivial with h1 | ⟨e, h1⟩
    · exact Or.inl (Or.inl h1)
    · exact Or.inl (Or.inr ⟨_, e, h1⟩)
  · intro hst
    cases hs1 : step s Event.teardownWake with
    | none => rw [hs1] at hst; cases hst
    | some s1 =>
      have hS := Step.of_step hs1
      cases hS
      assumption

/-- Witness for C8: `Up` fails with error 7 and the group's handling of that
return cancels `errCtx`; the call of `Down` that follows carries
`context.Background()` and has the failed task before it in the trace. -/
theorem down_only_after_cancellation_witness :
    exec init (upFailedSchedule ++ [Event.teardownWake]) = some downStartedState ∧
    downStartedState.trace = [] ++ Obs.downCall Ctx.background :: upFailedState.trace ∧
    (Ctx.background = Ctx.background ∧ CancelledIn upFailedState.trace) :=
  ⟨by decide, rfl,
    (down_only_after_cancellation (upFailedSchedule ++ [Event.teardownWake])
      downStartedState (by decide)).1 [] Ctx.background upFailedState.trace rfl⟩

/-- C9, counterexample: the context handed to `srv.Shutdown` has no deadline,
and `listen` can return an error after the cancellation.  In the run where a
signal arrives while the listener serves, the shutdown call that is recorded
carries `context.Background()`, whose deadline is absent (a context made by
`context.WithTimeout` would have one); and when the listener fails with error 3
after the signal, `listen` returns error 3. -/
theorem shutdown_context_has_no_deadline :
    shutdownCtx.deadline = none ∧
    (exec init [Event.upCall, Event.upReturn none, Event.signal, Event.shutdownWake]).map
        (fun s => s.trace.head?) = some (some (Obs.shutdownCall Ctx.background)) ∧
    Ctx.background.deadline = none ∧
    (Ctx.withTimeout Ctx.background (5 * Second)).deadline = some (5 * Second) ∧
    (exec init [Event.upCall, Event.upReturn none, Event.signal,
        Event.lasReturn (some (GoError.other 3))]).map State.serve =
      some (ServePc.returned (some (GoError.other 3))) := by
  decide

/-- C9, amended: in every reachable state, each `srv.Shutdown` call in the
trace was made after a cancellation of `errCtx` was recorded and with
`context.Background()`, which has no deadline and is never done.  When the
listener is serving and `errCtx` is done, the shutdown request is enabled or
already made; once it is made, also while `Shutdown` has not returned,
`ListenAndServe` ending with `http.ErrServerClosed` is enabled and makes
`listen` return nil.  Whenever `listen` has returned, it returned `listen x` for
the non-nil result `x` of `ListenAndServe`: nil exactly when `x` is
`http.ErrServerClosed`, which is only after the shutdown was requested, and the
listener's error otherwise.  `srv.Shutdown` is called at most once. -/
theorem graceful_stop_has_no_deadline (evs : List Event) (s : State)
    (h : exec init evs = some s) :
    (∀ later c earlier, s.trace = later ++ Obs.shutdownCall c :: earlier →
      c = Ctx.background ∧ c.deadline = none ∧ (∀ f : Flags, c.done f = false) ∧
        CancelledIn earlier) ∧
    (s.serve = ServePc.serving → s.errCtxDone = true →
      (s.shutdown = ShutdownPc.waiting ∧
        (step s Event.shutdownWake).map State.shutdown = some ShutdownPc.inShutdown) ∨
      s.shutdown = ShutdownPc.inShutdown ∨ s.shutdown = ShutdownPc.done) ∧
    (s.serve = ServePc.serving →
      s.shutdown = ShutdownPc.inShutdown ∨ s.shutdown = ShutdownPc.done →
      (step s (Event.lasReturn (some GoError.ErrServerClosed))).map State.serve =
        some (ServePc.returned none)) ∧
    (∀ r, s.serve = ServePc.returned r ∨ s.serve = ServePc.done r →
      listenCalls s.trace = 1 →
      ∃ x, lasRets s.trace = [some x] ∧ r = listen (some x) ∧
        (r = none ↔ x = GoError.ErrServerClosed) ∧
        (x = GoError.ErrServerClosed → shutdownCalls s.trace = 1)) ∧
    shutdownCalls s.trace ≤ 1 := by
  have hi := inv_of_exec h
  have ho := ord_of_exec h
  have hsh := hi.shut
  unfold ShutInv at hsh
  refine ⟨?_, ?_, ?_, ?_, ?_⟩
  · intro later c earlier htr
    have hc := ho.shutArg c (by rw [htr]; simp)
    subst hc
    exact ⟨rfl, rfl, fun f => rfl, ho.shut later _ earlier htr trivial⟩
  · intro hsv hdone
    cases hS : s.shutdown with
    | absent => exact absurd hS (hi.ctl.servingShut hsv)
    | waiting =>
      left
      refine ⟨rfl, ?_⟩
      simp [step, hS, hdone]
    | inShutdown => exact Or.inr (Or.inl rfl)
    | done => exact Or.inr (Or.inr rfl)
  · intro hsv hS
    rcases hS with hS | hS <;> simp [step, hsv, hS, listen]
  · intro r hr hl
    have hu := hi.up
    unfold UpInv at hu
    have hsv : Served s.trace r := by
      rcases hr with hr | hr <;> simpa only [hr] using hu
    obtain ⟨_, ⟨e, _, _, hl0, _⟩ | ⟨x0, hx0, hrl, _, _, hlas⟩⟩ := hsv
    · omega
    · cases x0 with
      | none => exact absurd rfl hx0
      | some x =>
        refine ⟨x, hlas, hrl, ?_, ?_⟩
        · constructor
          · intro hn
            rw [hn] at hrl
            have := listen_eq_none hx0 hrl.symm
            exact Option.some.inj this
          · intro hx
            rw [hrl, hx]
            decide
        · intro hx
          have hc := hi.closed (by rw [hlas, hx]; simp)
          rcases hc with hc | hc <;> simp only [hc] at hsh <;> exact hsh.1
  · cases hS : s.shutdown <;> simp only [hS] at hsh <;> omega

/-- Witness for the amended C9: a signal arrives while the listener serves;
the shutdown request carries `context.Background()`. -/
theorem graceful_stop_has_no_deadline_witness :
    exec init [Event.upCall, Event.upReturn none, Event.signal, Event.shutdownWake] =
      some shutdownRequestedState ∧
    shutdownRequestedState.trace =
      [] ++ Obs.shutdownCall Ctx.background :: (Obs.signal :: servingState.trace) ∧
    (Ctx.background = Ctx.background ∧ Ctx.background.deadline = none ∧
      (∀ f : Flags, Ctx.background.done f = false) ∧
      CancelledIn (Obs.signal :: servingState.trace)) :=
  ⟨by decide, rfl,
    (graceful_stop_has_no_deadline
      [Event.upCall, Event.upReturn none, Event.signal, Event.shutdownWake]
      shutdownRequestedState (by decide)).1 [] Ctx.background
      (Obs.signal :: servingState.trace) rfl⟩

/-- C10, counterexample: a signal arrives while `Up` is in progress; the
teardown task wakes up and invokes `Down` while `Up` is still running. -/
theorem down_can_overlap_up :
    (exec init [Event.upCall, Event.signal, Event.teardownWake]).map
        (fun s => (s.serve, s.teardown, downCalls s.trace, upRets s.trace)) =
      some (ServePc.inUp, TeardownPc.inDown, 1, []) := by
  decide

set_option maxHeartbeats 4000000 in
theorem phase_step {s s1 : State} {ev : Event} (hi : Inv s) (hS : Step s ev s1)
    (hn : NoEarlySignal s) (hn1 : NoEarlySignal s1) :
    (phase s1 = phase s ∨ specEdge (phase s) (phase s1) = true) ∧
    (phase s = Phase.MigratingUp → phase s1 = Phase.MigratedDown →
      ∃ e, ev = Event.upReturn (some e)) ∧
    (phase s = Phase.Serving → phase s1 = Phase.ShuttingDown →
      ev = Event.signal ∨ ∃ r, ev = Event.lasReturn r) := by
  have f1 := hi.ctl.returned
  have f2 := hi.early
  have f3 := hi.up
  have f4 := hi.ctl.tearWoke
  unfold UpInv Served at f3
  unfold NoEarlySignal at hn hn1
  clear hi
  cases hS <;> cases hr : s.run <;> cases hv : s.serve <;> cases htd : s.teardown <;>
    simp_all [phase, specEdge, errCtxDone_eq, listenCalls, Group.taskDone, Group.wait] <;>
    (try split_ifs) <;> simp_all

theorem mem_of_mem_upRets {tr : List Obs} {r : Result} (h : r ∈ upRets tr) :
    Obs.upRet r ∈ tr := by
  induction tr with
  | nil => cases h
  | cons o tr ih =>
    cases o <;> simp only [upRets, List.mem_cons] at h <;>
      first
      | exact List.mem_cons_of_mem _ (ih h)
      | (rcases h with h | h
         · subst h; exact List.mem_cons_self _ _
         · exact List.mem_cons_of_mem _ (ih h))

theorem mem_of_mem_lasRets {tr : List Obs} {r : Result} (h : r ∈ lasRets tr) :
    Obs.lasRet r ∈ tr := by
  induction tr with
  | nil => cases h
  | cons o tr ih =>
    cases o <;> simp only [lasRets, List.mem_cons] at h <;>
      first
      | exact List.mem_cons_of_mem _ (ih h)
      | (rcases h with h | h
         · subst h; exact List.mem_cons_self _ _
         · exact List.mem_cons_of_mem _ (ih h))

theorem serve_failure_cause {s : State} (hi : Inv s) (e : GoError)
    (h : Obs.taskDone Task.serve (some e) ∈ s.trace) :
    Obs.upRet (some e) ∈ s.trace ∨ ∃ x, Obs.lasRet x ∈ s.trace ∧ listen x = some e := by
  have hm := mem_completions h
  have hc := hi.comp
  unfold CompInv at hc
  have hsv : s.serve = ServePc.done (some e) := by
    cases hv : s.serve <;> cases htd : s.teardown <;>
      simp_all [TeardownPc.completed, ServePc.completed] <;>
      (rcases hc with hc | hc <;> rw [hc] at hm <;> simp_all)
  have hu := hi.up
  unfold UpInv Served at hu
  simp only [hsv] at hu
  obtain ⟨_, ⟨e1, hr, hu2, _, _⟩ | ⟨x, _, hr, _, _, hu4⟩⟩ := hu
  · left
    apply mem_of_mem_upRets
    rw [hu2, hr]
    simp
  · right
    refine ⟨x, mem_of_mem_lasRets ?_, hr.symm⟩
    rw [hu4]
    simp

/-- C10, amended: in every reachable state, each call of `Down` in the trace
comes after a signal or after the serve task returned a non-nil error, and such
an error is the error of `Up` or a failure of the listener; `Down` has been
invoked while `Up` was not yet finished only if a signal has arrived; and as
long as no signal arrives before `Up` has returned, `Down` is not invoked while
`Up` is in progress and every step either stays in its phase or follows an edge
of the state machine Idle, MigratingUp, Serving, ShuttingDown, MigratedDown,
Done with the shortcut MigratingUp to MigratedDown, the shortcut being taken
only when `Up` returns an error and Serving being left for ShuttingDown only by
a signal or by the end of `ListenAndServe`. -/
theorem down_follows_signal_or_failure (evs : List Event) (s : State)
    (h : exec init evs = some s) :
    (∀ later c earlier, s.trace = later ++ Obs.downCall c :: earlier →
      Obs.signal ∈ earlier ∨ ∃ e, Obs.taskDone Task.serve (some e) ∈ earlier) ∧
    (∀ e, Obs.taskDone Task.serve (some e) ∈ s.trace →
      Obs.upRet (some e) ∈ s.trace ∨ ∃ x, Obs.lasRet x ∈ s.trace ∧ listen x = some e) ∧
    (s.serve = ServePc.start ∨ s.serve = ServePc.inUp → s.teardown ≠ TeardownPc.waiting →
      s.signalled = true) ∧
    (NoEarlySignal s → s.serve = ServePc.start ∨ s.serve = ServePc.inUp →
      s.teardown = TeardownPc.waiting ∧ downCalls s.trace = 0) ∧
    (∀ ev s1, step s ev = some s1 → NoEarlySignal s → NoEarlySignal s1 →
      (phase s1 = phase s ∨ specEdge (phase s) (phase s1) = true) ∧
      (phase s = Phase.MigratingUp → phase s1 = Phase.MigratedDown →
        ∃ e, ev = Event.upReturn (some e)) ∧
      (phase s = Phase.Serving → phase s1 = Phase.ShuttingDown →
        ev = Event.signal ∨ ∃ r, ev = Event.lasReturn r)) := by
  have hi := inv_of_exec h
  have ho := ord_of_exec h
  refine ⟨?_, serve_failure_cause hi, ?_, ?_, ?_⟩
  · intro later c earlier htr
    exact ho.down later _ earlier htr trivial
  · intro hv
    exact (hi.early hv).2.2
  · intro hn hv
    have htw : s.teardown = TeardownPc.waiting := by
      by_contra hne
      have := (hi.early hv).2.2 hne
      rw [hn hv] at this
      cases this
    have hd := hi.down
    unfold DownInv at hd
    simp only [htw] at hd
    exact ⟨htw, hd.1⟩
  · intro ev s1 hst hn hn1
    exact phase_step hi (Step.of_step hst) hn hn1

/-- Witness for the amended C10: `Up` fails with error 7, the group handles
that return and `Down` is then invoked; the failed serve task precedes the call
of `Down` in the trace. -/
theorem down_follows_signal_or_failure_witness :
    exec init (upFailedSchedule ++ [Event.teardownWake]) = some downStartedState ∧
    downStartedState.trace = [] ++ Obs.downCall Ctx.background :: upFailedState.trace ∧
    (Obs.signal ∈ upFailedState.trace ∨
      ∃ e, Obs.taskDone Task.serve (some e) ∈ upFailedState.trace) :=
  ⟨by decide, rfl,
    (down_follows_signal_or_failure (upFailedSchedule ++ [Event.teardownWake])
      downStartedState (by decide)).1 [] Ctx.background upFailedState.trace rfl⟩

end Gophermart
